import Mathlib

/-!
Verification of the Cognishelf full-text-search subsystem: a shallow embedding of
the tokenizer (app.js, tokenizer section) and the inverted index
(src/utils/InvertedIndex.js), with theorems settling the frozen claims about the
natural-language specification.

Conventions of the embedding:
* JavaScript strings are modelled as `List Char` (`Str`).  All characters the
  tokenizer distinguishes (ASCII, fullwidth forms, Hiragana, Katakana, CJK
  ideographs, the punctuation of the split regex) lie in the Basic Multilingual
  Plane, where one JS UTF-16 code unit is one code point, so `List Char` lengths
  and substrings agree with JS `String.prototype` behaviour on them.
* JS `Set` is modelled as `JsSet`: an insertion-ordered duplicate-free list.
* JS `Map` is modelled as `JsMap`: an insertion-ordered association list with
  unique keys; `set` updates in place (JS Maps keep the original position).
* JS numbers used for scores and statistics are modelled as `ℚ`; every score in
  this program is a ratio of two small naturals, where double arithmetic is a
  faithful image of the rationals.
* `Array.prototype.sort` with comparator `(a, b) => b.score - a.score` is a
  stable descending sort; it is modelled by a stable insertion sort.
-/

abbrev Str := List Char

/-! ## JS `Set` model -/

/-- A JavaScript `Set`: insertion-ordered, each element occurs once.  The
well-formedness (no duplicates) is tracked separately by `WF` predicates. -/
structure JsSet (α : Type) where
  elems : List α
deriving DecidableEq

namespace JsSet

variable {α : Type} [DecidableEq α]

/-- `Set.prototype.has` -/
def has (s : JsSet α) (x : α) : Bool := decide (x ∈ s.elems)

/-- `Set.prototype.add`: appends at the end when absent, no-op when present. -/
def add (s : JsSet α) (x : α) : JsSet α :=
  if x ∈ s.elems then s else ⟨s.elems ++ [x]⟩

/-- `Set.prototype.delete`: removes the (unique) occurrence of `x`. -/
def del (s : JsSet α) (x : α) : JsSet α :=
  ⟨s.elems.filter (fun y => decide (y ≠ x))⟩

/-- `Set.prototype.size` -/
def size (s : JsSet α) : Nat := s.elems.length

/-- `new Set(iterable)`: inserts the elements in order, dropping duplicates. -/
def ofList (l : List α) : JsSet α := l.foldl (fun s x => s.add x) ⟨[]⟩

end JsSet

/-! ## JS `Map` model -/

/-- First-match association-list lookup, the semantics of `Map.prototype.get`
on the entry list. -/
def lookupFirst {κ ν : Type} [DecidableEq κ] : List (κ × ν) → κ → Option ν
  | [], _ => none
  | e :: es, k => if e.1 = k then some e.2 else lookupFirst es k

/-- A JavaScript `Map`: insertion-ordered association list, unique keys (the
uniqueness is tracked by `WF` predicates). -/
structure JsMap (κ ν : Type) where
  entries : List (κ × ν)
deriving DecidableEq

namespace JsMap

variable {κ ν : Type} [DecidableEq κ]

/-- `Map.prototype.get` (first matching key). -/
def get (m : JsMap κ ν) (k : κ) : Option ν := lookupFirst m.entries k

/-- `Map.prototype.has` -/
def hasKey (m : JsMap κ ν) (k : κ) : Bool :=
  m.entries.any (fun e => decide (e.1 = k))

/-- `Map.prototype.set`: updates the entry in place when the key is present
(JS Maps keep the original insertion position), appends otherwise. -/
def set (m : JsMap κ ν) (k : κ) (v : ν) : JsMap κ ν :=
  if m.entries.any (fun e => decide (e.1 = k)) then
    ⟨m.entries.map (fun e => if e.1 = k then (k, v) else e)⟩
  else
    ⟨m.entries ++ [(k, v)]⟩

/-- `Map.prototype.delete` -/
def del (m : JsMap κ ν) (k : κ) : JsMap κ ν :=
  ⟨m.entries.filter (fun e => decide (e.1 ≠ k))⟩

/-- `Map.prototype.size` -/
def size (m : JsMap κ ν) : Nat := m.entries.length

def keys (m : JsMap κ ν) : List κ := m.entries.map Prod.fst

end JsMap

/-! ## Tokenizer (app.js) -/

/-- The JAPANESE_STOPWORDS set of the source, verbatim. -/
def JAPANESE_STOPWORDS : List Str :=
  ["の", "に", "は", "を", "た", "が", "で", "て", "と", "し", "れ", "さ", "ある",
   "いる", "も", "する", "から", "な", "こと", "として", "い", "や", "れる",
   "など", "なっ", "ない", "この", "ため", "その", "あっ", "よう", "また",
   "もの", "という", "あり", "まで", "られ", "なる", "へ", "か", "だ", "これ",
   "によって", "により", "おり", "より", "による", "ず", "なり", "られる",
   "において", "ば", "なかっ", "なく", "しかし", "について", "せ", "だっ",
   "その後", "できる", "それ", "う", "ので", "なお", "のみ", "でき", "き",
   "つ", "における", "および", "いう", "さらに", "でも", "ら", "たり", "その他",
   "に関する", "たち", "ます", "ん", "なら", "に対して", "特に", "せる", "及び",
   "これら", "とき", "では", "にて", "ほか", "ながら", "うち", "そして", "とともに",
   "ただし", "かつて", "それぞれ", "または", "お", "ほど", "ものの", "に対する",
   "ほとんど", "と共に", "といった", "です", "とも", "ところ", "ここ"].map String.data

/-- The ENGLISH_STOPWORDS set of the source, verbatim. -/
def ENGLISH_STOPWORDS : List Str :=
  ["the", "a", "an", "and", "or", "but", "in", "on", "at", "to", "for",
   "of", "with", "by", "from", "as", "is", "was", "are", "were", "been",
   "be", "have", "has", "had", "do", "does", "did", "will", "would",
   "should", "could", "may", "might", "must", "can", "this", "that",
   "these", "those", "i", "you", "he", "she", "it", "we", "they"].map String.data

/-- The character set matched by the JS regex class `\s` (ECMAScript
WhiteSpace and LineTerminator code points). -/
def jsWhitespaceChars : List Char :=
  [Char.ofNat 0x09, Char.ofNat 0x0A, Char.ofNat 0x0B, Char.ofNat 0x0C,
   Char.ofNat 0x0D, ' ', Char.ofNat 0xA0, Char.ofNat 0x1680,
   Char.ofNat 0x2000, Char.ofNat 0x2001, Char.ofNat 0x2002, Char.ofNat 0x2003,
   Char.ofNat 0x2004, Char.ofNat 0x2005, Char.ofNat 0x2006, Char.ofNat 0x2007,
   Char.ofNat 0x2008, Char.ofNat 0x2009, Char.ofNat 0x200A,
   Char.ofNat 0x2028, Char.ofNat 0x2029, Char.ofNat 0x202F, Char.ofNat 0x205F,
   Char.ofNat 0x3000, Char.ofNat 0xFEFF]

def jsWhitespace (c : Char) : Bool := decide (c ∈ jsWhitespaceChars)

/-- `String.prototype.toLowerCase`, restricted to the character ranges this
program distinguishes: ASCII letters and fullwidth Latin letters (Unicode
simple lowercase); every other character the tokenizer classifies (digits,
Hiragana, Katakana, CJK ideographs, punctuation, whitespace) is caseless. -/
def jsToLower (c : Char) : Char :=
  if 0x41 ≤ c.toNat ∧ c.toNat ≤ 0x5A then Char.ofNat (c.toNat + 32)
  else if 0xFF21 ≤ c.toNat ∧ c.toNat ≤ 0xFF3A then Char.ofNat (c.toNat + 32)
  else c

/-- The replacement `[Ａ-Ｚａ-ｚ０-９] ↦ code point − 0xFEE0` of the source. -/
def toHalfwidth (c : Char) : Char :=
  if (0xFF21 ≤ c.toNat ∧ c.toNat ≤ 0xFF3A) ∨ (0xFF41 ≤ c.toNat ∧ c.toNat ≤ 0xFF5A)
      ∨ (0xFF10 ≤ c.toNat ∧ c.toNat ≤ 0xFF19) then
    Char.ofNat (c.toNat - 0xFEE0)
  else c

/-- U+3000, the ideographic space replaced by `' '` in `normalizeText`. -/
def ideographicSpace : Char := Char.ofNat 0x3000

/-- The replacement `/\s+/g ↦ ' '`: each maximal whitespace run becomes one
space (a run emits its space at its last character). -/
def collapseWs : Str → Str
  | [] => []
  | [c] => if jsWhitespace c then [' '] else [c]
  | c :: d :: rest =>
      if jsWhitespace c then
        if jsWhitespace d then collapseWs (d :: rest)
        else ' ' :: collapseWs (d :: rest)
      else c :: collapseWs (d :: rest)

/-- `String.prototype.trim`. -/
def trimWs (l : Str) : Str :=
  ((l.dropWhile jsWhitespace).reverse.dropWhile jsWhitespace).reverse

/-- `normalizeText` of the source: lowercase, fullwidth Latin/digits to
halfwidth, U+3000 to space, collapse whitespace runs, trim.  Non-string input
is out of the model; empty input yields the empty string. -/
def normalizeText (text : Str) : Str :=
  if text = [] then []
  else
    trimWs (collapseWs (((text.map jsToLower).map toHalfwidth).map
      (fun c => if c = ideographicSpace then ' ' else c)))

/-- The punctuation of the split regex
`[\s　,.、。!?！?()（）\[\]「」『』【】]` (whitespace handled by
`jsWhitespace`; U+3000 is in `\s` as well; the class lists ASCII `?` twice,
fullwidth `？` U+FF1F is not in it). -/
def splitPunct : List Char :=
  [',', '.', '、', '。', '!', '?', '！', '(', ')', '（', '）',
   '[', ']', '「', '」', '『', '』', '【', '】']

def isSplitChar (c : Char) : Bool := jsWhitespace c || decide (c ∈ splitPunct)

/-- Word accumulator for `splitWords`; `cur` is the current word reversed. -/
def splitWordsGo (cur : Str) : Str → List Str
  | [] => if cur = [] then [] else [cur.reverse]
  | c :: rest =>
      if isSplitChar c then
        if cur = [] then splitWordsGo [] rest
        else cur.reverse :: splitWordsGo [] rest
      else splitWordsGo (c :: cur) rest

/-- `normalized.split(splitRegex)` followed by the `if (!word) continue`
filtering of the word loop: the maximal runs of non-separator characters. -/
def splitWords (s : Str) : List Str := splitWordsGo [] s

structure TokenizeOptions where
  minLength : Nat := 2
  maxLength : Nat := 50
  useBigram : Bool := true
  removeStopwords : Bool := true
  keepNumbers : Bool := true

/-- The regex class `[a-z0-9]` of the word test `^[a-z0-9]+$`
(`a`..`z` is 0x61..0x7A, `0`..`9` is 0x30..0x39). -/
def isAsciiWordChar (c : Char) : Bool :=
  decide ((0x61 ≤ c.toNat ∧ c.toNat ≤ 0x7A) ∨ (0x30 ≤ c.toNat ∧ c.toNat ≤ 0x39))

/-- The regex class `\d` of the purely-numeric test `^\d+$`. -/
def isDigitChar (c : Char) : Bool := decide (0x30 ≤ c.toNat ∧ c.toNat ≤ 0x39)

/-- The Hiragana/Katakana/CJK-ideograph class
`[぀-ゟ゠-ヿ一-鿿]` of the source. -/
def isJpChar (c : Char) : Bool :=
  decide ((0x3040 ≤ c.toNat ∧ c.toNat ≤ 0x309F)
    ∨ (0x30A0 ≤ c.toNat ∧ c.toNat ≤ 0x30FF)
    ∨ (0x4E00 ≤ c.toNat ∧ c.toNat ≤ 0x9FFF))

/-- One iteration of the word loop of `tokenize`: processes `word` against the
accumulated token set.  Mirrors the source branch structure: the ASCII-word
branch (`^[a-z0-9]+$`), then the Japanese branch (any Hiragana/Katakana/CJK
character), else nothing. -/
def addWordTokens (opts : TokenizeOptions) (acc : JsSet Str) (word : Str) : JsSet Str :=
  if word = [] then acc
  else if word.all isAsciiWordChar then
    if opts.minLength ≤ word.length ∧ word.length ≤ opts.maxLength then
      if opts.removeStopwords ∧ word ∈ ENGLISH_STOPWORDS then acc
      else if ¬ opts.keepNumbers ∧ word.all isDigitChar then acc
      else acc.add word
    else acc
  else if word.any isJpChar then
    if opts.removeStopwords ∧ word ∈ JAPANESE_STOPWORDS then acc
    else
      let acc1 :=
        if opts.minLength ≤ word.length ∧ word.length ≤ opts.maxLength then
          acc.add word
        else acc
      if opts.useBigram ∧ 2 ≤ word.length then
        (List.range (word.length - 1)).foldl (fun a i =>
          let bg := (word.drop i).take 2
          if bg.length = 2 ∧ bg.all isJpChar then a.add bg else a) acc1
      else acc1
  else acc

/-- `tokenize` of the source: normalize, split into words, process each word
into a shared `Set`, return its elements in insertion order. -/
def tokenize (text : Str) (opts : TokenizeOptions := {}) : List Str :=
  let normalized := normalizeText text
  if normalized = [] then []
  else ((splitWords normalized).foldl (fun acc w => addWordTokens opts acc w)
    (⟨[]⟩ : JsSet Str)).elems

/-- The value of a document field: a string, an array (an array item is either
a string, `some s`, or a non-string value, `none`, which the extractor skips),
or any other JS value. -/
inductive FieldValue where
  | str (s : Str)
  | arr (items : List (Option Str))
  | other
deriving DecidableEq

/-- A document: an object read only through its named fields. -/
abbrev Document := List (Str × FieldValue)

/-- `extractTokens` of the source: unions `tokenize` over the requested
fields; array-valued fields tokenize each string element. -/
def extractTokens (document : Document)
    (fields : List Str := ["title".data, "content".data, "description".data])
    (opts : TokenizeOptions := {}) : List Str :=
  (fields.foldl (fun acc f =>
    match lookupFirst document f with
    | some (FieldValue.str s) =>
        (tokenize s opts).foldl (fun a t => a.add t) acc
    | some (FieldValue.arr items) =>
        items.foldl (fun a it =>
          match it with
          | some s => (tokenize s opts).foldl (fun a2 t => a2.add t) a
          | none => a) acc
    | _ => acc) (⟨[]⟩ : JsSet Str)).elems

/-- `calculateMatchScore` of the source: matched query tokens over total query
tokens; `0` for an empty query.  (`mkRat a b` is the rational `a / b`; see
`calculateMatchScore_eq_div`.) -/
def calculateMatchScore (queryTokens docTokens : List Str) : ℚ :=
  if queryTokens.length = 0 then 0
  else mkRat (queryTokens.countP (fun t => decide (t ∈ docTokens))) queryTokens.length

/-- Position scan for `indexOfFrom`; the fuel dominates the number of
positions left to try. -/
def indexOfFromGo (text pat : Str) : Nat → Nat → Option Nat
  | 0, _ => none
  | fuel + 1, start =>
      if start + pat.length ≤ text.length then
        if pat.isPrefixOf (text.drop start) then some start
        else indexOfFromGo text pat fuel (start + 1)
      else none

/-- `String.prototype.indexOf(pat, start)`: the first position `≥ start` where
`pat` occurs in `text` (for nonempty `pat`; for empty `pat` and
`start ≤ text.length` it returns `start`, as in JS). -/
def indexOfFrom (text pat : Str) (start : Nat) : Option Nat :=
  indexOfFromGo text pat (text.length + 1 - start) start

/-- The `while (true)` scan of `findMatchPositions` for one token: report the
match, resume at its end.  `fuel` bounds the recursion; `text.length + 1` is
enough for any nonempty pattern. -/
def occurScan (text pat : Str) : Nat → Nat → List Nat
  | 0, _ => []
  | fuel + 1, start =>
      match indexOfFrom text pat start with
      | none => []
      | some i => i :: occurScan text pat fuel (i + pat.length)

/-- All match starts the source scan reports for one token.  On an empty token
the source loop never terminates (indexOf keeps returning the same position);
the model returns no occurrences for it. -/
def tokenOccurrences (text pat : Str) : List Nat :=
  if pat = [] then []
  else occurScan text pat (text.length + 1) 0

/-- A `{start, end, token}` record of `findMatchPositions` (the source field
`end` is a Lean keyword, hence `endPos`). -/
structure MatchPosition where
  start : Nat
  endPos : Nat
  token : Str
deriving DecidableEq

/-- Stable insertion step for the ascending sort `(a, b) => a.start - b.start`. -/
def insertByStartAsc (p : MatchPosition) :
    List MatchPosition → List MatchPosition
  | [] => [p]
  | q :: qs => if p.start < q.start then p :: q :: qs else q :: insertByStartAsc p qs

/-- `positions.sort((a, b) => a.start - b.start)`: stable ascending sort. -/
def sortByStartAsc (l : List MatchPosition) : List MatchPosition :=
  l.foldl (fun acc p => insertByStartAsc p acc) []

/-- `findMatchPositions` of the source. -/
def findMatchPositions (text : Str) (queryTokens : List Str) : List MatchPosition :=
  let normalized := normalizeText text
  sortByStartAsc (queryTokens.flatMap (fun tok =>
    (tokenOccurrences normalized tok).map
      (fun i => ⟨i, i + tok.length, tok⟩)))

/-! ## Inverted index (src/utils/InvertedIndex.js) -/

/-- The `stats` record maintained by `updateStats`. -/
structure Stats where
  totalDocuments : Nat
  totalTokens : Nat
  averageTokensPerDocument : ℚ
deriving DecidableEq

/-- The state of an `InvertedIndex` instance: the three maps plus the stored
statistics. -/
structure InvertedIndex where
  index : JsMap Str (JsSet Str)
  documents : JsMap Str Document
  documentTokens : JsMap Str (JsSet Str)
  stats : Stats
deriving DecidableEq

namespace InvertedIndex

/-- The statistics recomputed by `updateStats` from the three maps. -/
def computeStats (s : InvertedIndex) : Stats :=
  let totalDocuments := s.documents.size
  let totalTokens := s.index.size
  { totalDocuments := totalDocuments
    totalTokens := totalTokens
    averageTokensPerDocument :=
      if 0 < totalDocuments then
        mkRat (s.documentTokens.entries.foldl (fun sum e => sum + e.2.size) 0)
          totalDocuments
      else 0 }

/-- `updateStats()`: recompute and store the statistics. -/
def updateStats (s : InvertedIndex) : InvertedIndex :=
  { s with stats := s.computeStats }

/-- The state produced by the constructor. -/
def emptyIndex : InvertedIndex :=
  { index := ⟨[]⟩, documents := ⟨[]⟩, documentTokens := ⟨[]⟩,
    stats := { totalDocuments := 0, totalTokens := 0, averageTokensPerDocument := 0 } }

/-- `removeDocument(docId)`: for each token of the document delete `docId`
from its posting set, dropping the token entry when the set empties; then
delete the document and its token set and recompute stats.  Unknown ids are a
no-op (the early return precedes the stats update). -/
def removeDocument (docId : Str) (s : InvertedIndex) : InvertedIndex :=
  match s.documentTokens.get docId with
  | none => s
  | some tokens =>
      let index' := tokens.elems.foldl (fun idx token =>
        match idx.get token with
        | none => idx
        | some docSet =>
            let ds := docSet.del docId
            if ds.size = 0 then idx.del token else idx.set token ds) s.index
      updateStats
        { index := index'
          documents := s.documents.del docId
          documentTokens := s.documentTokens.del docId
          stats := s.stats }

/-- The default `fields` argument of `addDocument`/`updateDocument`. -/
def defaultFields : List Str :=
  ["title".data, "content".data, "description".data, "tags".data]

/-- `addDocument(docId, document, fields)`: remove any existing posting of the
id, extract tokens, store the document and its token set, and insert the id
into each token's posting set; recompute stats. -/
def addDocument (docId : Str) (document : Document)
    (fields : List Str := defaultFields) (s : InvertedIndex) : InvertedIndex :=
  let s0 := if s.documents.hasKey docId then removeDocument docId s else s
  let tokens := extractTokens document fields
  let documents' := s0.documents.set docId document
  let documentTokens' := s0.documentTokens.set docId (JsSet.ofList tokens)
  let index' := tokens.foldl (fun idx token =>
    match idx.get token with
    | none => idx.set token (JsSet.add ⟨[]⟩ docId)
    | some ds => idx.set token (ds.add docId)) s0.index
  updateStats
    { index := index'
      documents := documents'
      documentTokens := documentTokens'
      stats := s0.stats }

/-- `updateDocument` is `addDocument` with the same id. -/
def updateDocument (docId : Str) (document : Document)
    (fields : List Str := defaultFields) (s : InvertedIndex) : InvertedIndex :=
  addDocument docId document fields s

/-- `clear()`: reset the three maps and recompute (zero) the stats. -/
def clear (s : InvertedIndex) : InvertedIndex :=
  updateStats { s with index := ⟨[]⟩, documents := ⟨[]⟩, documentTokens := ⟨[]⟩ }

/-- Search options; `sortByScore` models `sortBy === 'score'`; the default
`minScore` is the `0.1` of the source. -/
structure SearchOptions where
  limit : Nat := 100
  minScore : ℚ := mkRat 1 10
  sortByScore : Bool := true
  includeScore : Bool := true

/-- A `{document, score, matchedTokens}` result record.  The source record
holds the document fetched via `documents.get(docId)`; the model also carries
the id it was fetched by, to let id-level properties be stated. -/
structure SearchResult where
  docId : Str
  document : Document
  score : ℚ
  matchedTokens : List Str
deriving DecidableEq

/-- The posting list of a token (`index.get(token)`' elements, empty when the
token is unindexed). -/
def postingsOf (s : InvertedIndex) (token : Str) : List Str :=
  match s.index.get token with
  | some ds => ds.elems
  | none => []

/-- The token set of a document id (empty when the id is unknown), matching
the `this.documentTokens.get(docId) || []` reads of the search loops. -/
def tokensOf (s : InvertedIndex) (docId : Str) : List Str :=
  match s.documentTokens.get docId with
  | some ts => ts.elems
  | none => []

/-- The score-and-filter loop shared verbatim by `search` and `searchOr`:
skip ids whose document is missing, score against the document's token set,
keep records whose score reaches `minScore`. -/
def buildResults (s : InvertedIndex) (queryTokens : List Str) (minScore : ℚ)
    (ids : List Str) : List SearchResult :=
  ids.filterMap (fun docId =>
    match s.documents.get docId with
    | none => none
    | some document =>
        let docTokens := tokensOf s docId
        let score := calculateMatchScore queryTokens docTokens
        if minScore ≤ score then
          some { docId := docId, document := document, score := score,
                 matchedTokens := queryTokens.filter (fun t => decide (t ∈ docTokens)) }
        else none)

/-- Stable insertion step for `(a, b) => b.score - a.score` (descending). -/
def insertByScoreDesc (r : SearchResult) :
    List SearchResult → List SearchResult
  | [] => [r]
  | y :: ys => if y.score < r.score then r :: y :: ys else y :: insertByScoreDesc r ys

/-- `results.sort((a, b) => b.score - a.score)`: stable descending sort. -/
def sortByScoreDesc (l : List SearchResult) : List SearchResult :=
  l.foldl (fun acc r => insertByScoreDesc r acc) []

/-- The AND-candidate ids of `search`: the per-token posting sets intersected
left to right (`docIdSets[0]` filtered by membership in each later set). -/
def andCandidates (s : InvertedIndex) (queryTokens : List Str) : List Str :=
  match queryTokens.map (fun t => postingsOf s t) with
  | [] => []
  | d0 :: rest => rest.foldl (fun acc ds => acc.filter (fun id => decide (id ∈ ds))) d0

/-- The OR-candidate ids of `searchOr`: the union of the per-token posting
sets in insertion order. -/
def orCandidates (s : InvertedIndex) (queryTokens : List Str) : List Str :=
  (queryTokens.foldl (fun acc t =>
    match s.index.get t with
    | some ds => ds.elems.foldl (fun a id => a.add id) acc
    | none => acc) (⟨[]⟩ : JsSet Str)).elems

/-- `search(query, options)` (AND search), up to and including the
`slice(0, limit)` stage; when `includeScore` is false the source maps this
very list to its `document` fields (see `searchProjected`). -/
def search (query : Str) (opts : SearchOptions) (s : InvertedIndex) :
    List SearchResult :=
  let queryTokens := tokenize query
  if queryTokens.isEmpty then []
  else
    let results := buildResults s queryTokens opts.minScore (andCandidates s queryTokens)
    let sorted := if opts.sortByScore then sortByScoreDesc results else results
    sorted.take opts.limit

/-- `searchOr(query, options)` (OR search), up to and including the
`slice(0, limit)` stage. -/
def searchOr (query : Str) (opts : SearchOptions) (s : InvertedIndex) :
    List SearchResult :=
  let queryTokens := tokenize query
  if queryTokens.isEmpty then []
  else
    let results := buildResults s queryTokens opts.minScore (orCandidates s queryTokens)
    (sortByScoreDesc results).take opts.limit

/-- The `includeScore` projection applied by `search`/`searchOr` on return. -/
def searchProjected (opts : SearchOptions) (results : List SearchResult) :
    Sum (List SearchResult) (List Document) :=
  if opts.includeScore then Sum.inl results
  else Sum.inr (results.map (fun r => r.document))

/-- `searchPrefix(prefix, options)`: lowercase and trim the prefix, collect
the documents of every token starting with it, return up to `limit`
documents. -/
def searchPrefix (pfx : Str) (opts : SearchOptions) (s : InvertedIndex) :
    List Document :=
  let normPfx := trimWs (pfx.map jsToLower)
  if normPfx = [] then []
  else
    let matching := s.index.entries.foldl (fun acc e =>
      if normPfx.isPrefixOf e.1 then e.2.elems.foldl (fun a id => a.add id) acc
      else acc) (⟨[]⟩ : JsSet Str)
    (matching.elems.filterMap (fun id => s.documents.get id)).take opts.limit

/-- `estimateIndexSize()`: the heuristic byte estimate. -/
def estimateIndexSize (s : InvertedIndex) : Nat :=
  (s.index.entries.foldl (fun size e => size + e.1.length * 2 + e.2.size * 50) 0) +
  (s.documentTokens.entries.foldl (fun size e => size + e.1.length * 2 + e.2.size * 20) 0)

/-- The record returned by `getStats()`. -/
structure StatsReport where
  totalDocuments : Nat
  totalTokens : Nat
  averageTokensPerDocument : ℚ
  indexSizeBytes : Nat
deriving DecidableEq

/-- `getStats()`: the stored stats plus the size estimate. -/
def getStats (s : InvertedIndex) : StatsReport :=
  { totalDocuments := s.stats.totalDocuments
    totalTokens := s.stats.totalTokens
    averageTokensPerDocument := s.stats.averageTokensPerDocument
    indexSizeBytes := estimateIndexSize s }

/-- The serialized form produced by `export()`.  Each JS object field may be
missing or non-iterable in hand-crafted input, hence `Option` on the three
arrays; `export()` always produces all three. -/
structure ExportData where
  index : Option (List (Str × List Str))
  documents : Option (List (Str × Document))
  documentTokens : Option (List (Str × List Str))
deriving DecidableEq

/-- `export()`: flatten the three maps into arrays (`stats` is also exported
but never read back by `import`, so the model omits it). -/
def exportData (s : InvertedIndex) : ExportData :=
  { index := some (s.index.entries.map (fun e => (e.1, e.2.elems)))
    documents := some s.documents.entries
    documentTokens := some (s.documentTokens.entries.map (fun e => (e.1, e.2.elems))) }

/-- `import(data)`: `clear()`, then rebuild the three maps from the arrays and
recompute stats.  No validation is performed; a missing array raises a
`TypeError` in the `for…of` head, aborting with the state mutated so far
(second component `false`). -/
def importData (data : ExportData) (s : InvertedIndex) : InvertedIndex × Bool :=
  let s0 := clear s
  match data.index with
  | none => (s0, false)
  | some idxArr =>
      let s1 := { s0 with
        index := idxArr.foldl (fun m e => m.set e.1 (JsSet.ofList e.2)) s0.index }
      match data.documents with
      | none => (s1, false)
      | some docArr =>
          let s2 := { s1 with
            documents := docArr.foldl (fun m e => m.set e.1 e.2) s1.documents }
          match data.documentTokens with
          | none => (s2, false)
          | some dtArr =>
              let s3 := { s2 with
                documentTokens :=
                  dtArr.foldl (fun m e => m.set e.1 (JsSet.ofList e.2)) s2.documentTokens }
              (updateStats s3, true)

/-- Well-formedness every state reachable through the API enjoys: unique keys
in the three maps, no duplicates inside any stored set. -/
def WF (s : InvertedIndex) : Prop :=
  s.index.keys.Nodup ∧
  (∀ e ∈ s.index.entries, e.2.elems.Nodup) ∧
  s.documents.keys.Nodup ∧
  s.documentTokens.keys.Nodup ∧
  (∀ e ∈ s.documentTokens.entries, e.2.elems.Nodup)

instance (s : InvertedIndex) : Decidable (WF s) := by
  unfold WF; infer_instance

/-- The bidirectional consistency invariant of §3 of the spec: an id is in a
token's posting set iff the token is in the id's token set. -/
def Invariant (s : InvertedIndex) : Prop :=
  ∀ token docId, docId ∈ postingsOf s token ↔ token ∈ tokensOf s docId

/-- A bounded, decidable characterization of `Invariant` (membership is only
possible through entries of the two maps). -/
def invariantB (s : InvertedIndex) : Bool :=
  s.index.entries.all (fun e => e.2.elems.all (fun d => decide (e.1 ∈ tokensOf s d))) &&
  s.documentTokens.entries.all (fun e => e.2.elems.all (fun t => decide (e.1 ∈ postingsOf s t)))

/-- The stored statistics agree with the maps (every mutation recomputes them,
so every reachable state satisfies this). -/
def StatsConsistent (s : InvertedIndex) : Prop :=
  s.stats = s.computeStats

instance (s : InvertedIndex) : Decidable (StatsConsistent s) := by
  unfold StatsConsistent; infer_instance

/-- The key sets of `documents` and `documentTokens` agree (they are always
written and deleted together). -/
def KeySync (s : InvertedIndex) : Prop :=
  (∀ d ∈ s.documents.keys, d ∈ s.documentTokens.keys) ∧
  (∀ d ∈ s.documentTokens.keys, d ∈ s.documents.keys)

instance (s : InvertedIndex) : Decidable (KeySync s) := by
  unfold KeySync; infer_instance

/-- The conjunction of every structural property preserved by the mutation
API; `Invariant` is the component the claims are about. -/
def GoodState (s : InvertedIndex) : Prop :=
  WF s ∧ KeySync s ∧ Invariant s

/-- Extensional equality of states: the same key sets and memberships in the
three maps (set values compared as sets, document values as values) and equal
stored stats. -/
def ExtEq (s₁ s₂ : InvertedIndex) : Prop :=
  (∀ t, t ∈ s₁.index.keys ↔ t ∈ s₂.index.keys) ∧
  (∀ t d, d ∈ postingsOf s₁ t ↔ d ∈ postingsOf s₂ t) ∧
  (∀ d, s₁.documents.get d = s₂.documents.get d) ∧
  (∀ d, d ∈ s₁.documentTokens.keys ↔ d ∈ s₂.documentTokens.keys) ∧
  (∀ d t, t ∈ tokensOf s₁ d ↔ t ∈ tokensOf s₂ d) ∧
  s₁.stats = s₂.stats

end InvertedIndex

/-- One mutation of the index API, for stating the all-sequences invariant. -/
inductive IndexOp where
  | add (docId : Str) (document : Document) (fields : List Str)
  | update (docId : Str) (document : Document) (fields : List Str)
  | remove (docId : Str)

/-- Apply one operation. -/
def applyOp (s : InvertedIndex) : IndexOp → InvertedIndex
  | IndexOp.add docId document fields => InvertedIndex.addDocument docId document fields s
  | IndexOp.update docId document fields => InvertedIndex.updateDocument docId document fields s
  | IndexOp.remove docId => InvertedIndex.removeDocument docId s

/-- Run a sequence of operations from the freshly constructed index. -/
def runOps (ops : List IndexOp) : InvertedIndex :=
  ops.foldl applyOp InvertedIndex.emptyIndex

/-- `pat` occurs in `text` at offset `i`. -/
def occursAt (text pat : Str) (i : Nat) : Prop :=
  pat.isPrefixOf (text.drop i) = true ∧ i + pat.length ≤ text.length

instance (text pat : Str) (i : Nat) : Decidable (occursAt text pat i) := by
  unfold occursAt; infer_instance

/-- Sample document 1 of the spec scenarios (§8). -/
def sampleDoc1 : Document := [("title".data, FieldValue.str "プロジェクト管理".data)]

/-- Sample document 2 of the spec scenarios (§8). -/
def sampleDoc2 : Document := [("title".data, FieldValue.str "リスク管理".data)]

/-- The two-document index of the spec scenarios (§8), built through the API. -/
def sampleIndex : InvertedIndex :=
  InvertedIndex.addDocument "2".data sampleDoc2 ["title".data]
    (InvertedIndex.addDocument "1".data sampleDoc1 ["title".data]
      InvertedIndex.emptyIndex)

/-! # Theorems

All definitions of the embedding are above; everything below is proof. -/

namespace JsSet

variable {α : Type} [DecidableEq α]

@[simp] theorem mem_add {s : JsSet α} {x y : α} :
    y ∈ (s.add x).elems ↔ y ∈ s.elems ∨ y = x := by
  by_cases h : x ∈ s.elems
  · simp only [add, if_pos h]
    constructor
    · exact Or.inl
    · rintro (hy | rfl)
      · exact hy
      · exact h
  · simp [add, h]

theorem nodup_add {s : JsSet α} (h : s.elems.Nodup) (x : α) :
    (s.add x).elems.Nodup := by
  by_cases hx : x ∈ s.elems
  · simpa [add, hx] using h
  · simp only [add, if_neg hx]
    simp [List.nodup_append, h, hx]

theorem nodup_del {s : JsSet α} (h : s.elems.Nodup) (x : α) :
    (s.del x).elems.Nodup :=
  List.Nodup.filter _ h

@[simp] theorem mem_del {s : JsSet α} {x y : α} :
    y ∈ (s.del x).elems ↔ y ∈ s.elems ∧ y ≠ x := by
  simp [del]

theorem mem_ofList_aux (l : List α) (s : JsSet α) (y : α) :
    y ∈ (l.foldl (fun s x => s.add x) s).elems ↔ y ∈ s.elems ∨ y ∈ l := by
  induction l generalizing s with
  | nil => simp
  | cons a l ih =>
      simp only [List.foldl_cons, ih, mem_add, List.mem_cons]
      tauto

@[simp] theorem mem_ofList {l : List α} {y : α} :
    y ∈ (ofList l).elems ↔ y ∈ l := by
  simpa using mem_ofList_aux l ⟨[]⟩ y

theorem nodup_ofList_aux (l : List α) (s : JsSet α) (h : s.elems.Nodup) :
    (l.foldl (fun s x => s.add x) s).elems.Nodup := by
  induction l generalizing s with
  | nil => simpa
  | cons a l ih => exact ih _ (nodup_add h a)

theorem nodup_ofList (l : List α) : (ofList l).elems.Nodup :=
  nodup_ofList_aux l ⟨[]⟩ (by simp)

theorem ofList_eq_self_aux (l : List α) (s : JsSet α)
    (hd : (s.elems ++ l).Nodup) :
    l.foldl (fun s x => s.add x) s = ⟨s.elems ++ l⟩ := by
  induction l generalizing s with
  | nil => simp
  | cons a l ih =>
      have ha : a ∉ s.elems := by
        intro h
        have hdis := List.disjoint_of_nodup_append hd
        exact hdis h (by simp)
      have hstep : s.add a = ⟨s.elems ++ [a]⟩ := by simp [add, ha]
      rw [List.foldl_cons, hstep, ih ⟨s.elems ++ [a]⟩ (by simpa using hd)]
      simp

/-- Rebuilding a duplicate-free list into a `Set` reproduces it exactly. -/
theorem ofList_eq_self {l : List α} (h : l.Nodup) : ofList l = ⟨l⟩ := by
  simpa using ofList_eq_self_aux l ⟨[]⟩ (by simpa)

end JsSet

section LookupLemmas

variable {κ ν : Type} [DecidableEq κ]

theorem lookupFirst_eq_none_iff {l : List (κ × ν)} {k : κ} :
    lookupFirst l k = none ↔ k ∉ l.map Prod.fst := by
  induction l with
  | nil => simp [lookupFirst]
  | cons e es ih =>
      by_cases he : e.1 = k
      · simp [lookupFirst, he]
      · simp [lookupFirst, he, ih, Ne.symm he]

theorem lookupFirst_append {l₁ l₂ : List (κ × ν)} {k : κ} :
    lookupFirst (l₁ ++ l₂) k =
      match lookupFirst l₁ k with
      | some v => some v
      | none => lookupFirst l₂ k := by
  induction l₁ with
  | nil => simp [lookupFirst]
  | cons e es ih =>
      by_cases he : e.1 = k
      · simp [lookupFirst, he]
      · simp [lookupFirst, he, ih]

theorem lookupFirst_map_update_self {l : List (κ × ν)} {k : κ} {v : ν}
    (hk : k ∈ l.map Prod.fst) :
    lookupFirst (l.map (fun e => if e.1 = k then (k, v) else e)) k = some v := by
  induction l with
  | nil => simp at hk
  | cons e es ih =>
      by_cases he : e.1 = k
      · simp [lookupFirst, he]
      · have : k ∈ es.map Prod.fst := by
          rcases (by simpa using hk) with h | h
          · exact absurd h.symm he
          · simpa using h
        simp [lookupFirst, he, ih this]

theorem lookupFirst_map_update_other {l : List (κ × ν)} {k k' : κ} {v : ν}
    (hkk : k' ≠ k) :
    lookupFirst (l.map (fun e => if e.1 = k then (k, v) else e)) k' =
      lookupFirst l k' := by
  induction l with
  | nil => simp [lookupFirst]
  | cons e es ih =>
      by_cases he : e.1 = k
      · have : ¬ e.1 = k' := by rw [he]; exact fun h => hkk h.symm
        simp only [List.map_cons, if_pos he, lookupFirst]
        rw [if_neg (fun h => hkk h.symm), if_neg this]
        exact ih
      · simp only [List.map_cons, if_neg he, lookupFirst]
        by_cases he' : e.1 = k'
        · rw [if_pos he', if_pos he']
        · rw [if_neg he', if_neg he']
          exact ih

theorem lookupFirst_filter_ne {l : List (κ × ν)} {k k' : κ} :
    lookupFirst (l.filter (fun e => decide (e.1 ≠ k))) k' =
      if k' = k then none else lookupFirst l k' := by
  induction l with
  | nil => simp [lookupFirst]
  | cons e es ih =>
      by_cases he : e.1 = k
      · rw [List.filter_cons_of_neg (by simpa using he)]
        rw [ih]
        by_cases hkk : k' = k
        · simp [hkk]
        · have : ¬ e.1 = k' := by rw [he]; exact fun h => hkk h.symm
          simp [lookupFirst, this, hkk]
      · rw [List.filter_cons_of_pos (by simpa using he)]
        by_cases he' : e.1 = k'
        · have hkk : ¬ k' = k := by rw [← he']; exact fun h => he h
          simp [lookupFirst, he', hkk]
        · simp only [lookupFirst, if_neg he']
          exact ih

end LookupLemmas

namespace JsMap

variable {κ ν : Type} [DecidableEq κ]

@[simp] theorem get_nil (k : κ) : (⟨[]⟩ : JsMap κ ν).get k = none := by
  simp [get, lookupFirst]

theorem get_eq_none_iff {m : JsMap κ ν} {k : κ} :
    m.get k = none ↔ k ∉ m.keys :=
  lookupFirst_eq_none_iff

theorem get_isSome_iff {m : JsMap κ ν} {k : κ} :
    (m.get k).isSome ↔ k ∈ m.keys := by
  rcases h : m.get k with _ | v
  · simpa using get_eq_none_iff.mp h
  · simp only [Option.isSome_some, true_iff]
    by_contra hk
    rw [get_eq_none_iff.mpr hk] at h
    cases h

theorem hasKey_iff {m : JsMap κ ν} {k : κ} :
    m.hasKey k = true ↔ k ∈ m.keys := by
  simp only [hasKey, List.any_eq_true, decide_eq_true_eq, keys, List.mem_map]

@[simp] theorem get_set (m : JsMap κ ν) (k : κ) (v : ν) (k' : κ) :
    (m.set k v).get k' = if k' = k then some v else m.get k' := by
  unfold set
  by_cases hk : m.entries.any (fun e => decide (e.1 = k))
  · have hkm : k ∈ m.entries.map Prod.fst := by
      rcases List.any_eq_true.mp hk with ⟨e, he, hek⟩
      exact List.mem_map.mpr ⟨e, he, by simpa using hek⟩
    by_cases hkk : k' = k
    · subst hkk
      simp only [if_pos hk, get, if_true, lookupFirst_map_update_self hkm]
    · simp only [if_pos hk, get, if_neg hkk, lookupFirst_map_update_other hkk]
  · by_cases hkk : k' = k
    · subst hkk
      have hnone : m.get k' = none := by
        rw [get_eq_none_iff]
        intro hmem
        exact hk (hasKey_iff.mpr hmem)
      simp only [if_neg hk, get, if_true, lookupFirst_append]
      simp only [get] at hnone
      rw [hnone]
      simp [lookupFirst]
    · simp only [if_neg hk, get, if_neg hkk, lookupFirst_append]
      have hkk' : ¬ k = k' := fun h => hkk h.symm
      have : lookupFirst [(k, v)] k' = none := by
        simp [lookupFirst, hkk']
      rw [this]
      rcases lookupFirst m.entries k' <;> simp

@[simp] theorem get_del (m : JsMap κ ν) (k : κ) (k' : κ) :
    (m.del k).get k' = if k' = k then none else m.get k' := by
  simp only [del, get, lookupFirst_filter_ne]

theorem keys_set_of_mem {m : JsMap κ ν} {k : κ} (hk : k ∈ m.keys) (v : ν) :
    (m.set k v).keys = m.keys := by
  have hany : m.entries.any (fun e => decide (e.1 = k)) = true := by
    rcases List.mem_map.mp hk with ⟨e, he, hek⟩
    exact List.any_eq_true.mpr ⟨e, he, by simpa using hek⟩
  simp only [set, if_pos hany, keys, List.map_map]
  apply List.map_congr_left
  intro e _
  by_cases he : e.1 = k <;> simp [he]

theorem keys_set_of_not_mem {m : JsMap κ ν} {k : κ} (hk : k ∉ m.keys) (v : ν) :
    (m.set k v).keys = m.keys ++ [k] := by
  have hany : ¬ m.entries.any (fun e => decide (e.1 = k)) = true := by
    intro h
    rcases List.any_eq_true.mp h with ⟨e, he, hek⟩
    exact hk (List.mem_map.mpr ⟨e, he, by simpa using hek⟩)
  simp [set, if_neg hany, keys]

theorem mem_keys_set (m : JsMap κ ν) (k : κ) (v : ν) (k' : κ) :
    k' ∈ (m.set k v).keys ↔ k' ∈ m.keys ∨ k' = k := by
  by_cases hk : k ∈ m.keys
  · rw [keys_set_of_mem hk]
    constructor
    · exact Or.inl
    · rintro (h | rfl)
      · exact h
      · exact hk
  · rw [keys_set_of_not_mem hk]
    simp

theorem nodupKeys_set {m : JsMap κ ν} (h : m.keys.Nodup) (k : κ) (v : ν) :
    (m.set k v).keys.Nodup := by
  by_cases hk : k ∈ m.keys
  · rw [keys_set_of_mem hk]; exact h
  · rw [keys_set_of_not_mem hk]
    simpa [List.nodup_append] using ⟨h, hk⟩

theorem keys_del_sublist (m : JsMap κ ν) (k : κ) :
    (m.del k).keys.Sublist m.keys :=
  (List.filter_sublist m.entries).map Prod.fst

theorem nodupKeys_del {m : JsMap κ ν} (h : m.keys.Nodup) (k : κ) :
    (m.del k).keys.Nodup :=
  h.sublist (keys_del_sublist m k)

theorem mem_keys_del {m : JsMap κ ν} {k k' : κ} :
    k' ∈ (m.del k).keys ↔ k' ∈ m.keys ∧ k' ≠ k := by
  simp only [del, keys, List.mem_map]
  constructor
  · rintro ⟨e, he, rfl⟩
    rcases List.mem_filter.mp he with ⟨he1, he2⟩
    exact ⟨⟨e, he1, rfl⟩, by simpa using he2⟩
  · rintro ⟨⟨e, he, rfl⟩, hne⟩
    exact ⟨e, List.mem_filter.mpr ⟨he, by simpa using hne⟩, rfl⟩

end JsMap

/-! ## Score bounds -/

theorem calculateMatchScore_eq_div (queryTokens docTokens : List Str) :
    calculateMatchScore queryTokens docTokens =
      if queryTokens.length = 0 then 0
      else (queryTokens.countP (fun t => decide (t ∈ docTokens)) : ℚ) /
        (queryTokens.length : ℚ) := by
  unfold calculateMatchScore
  split
  · rfl
  · rw [Rat.mkRat_eq_div]
    norm_num

theorem calculateMatchScore_nonneg (queryTokens docTokens : List Str) :
    0 ≤ calculateMatchScore queryTokens docTokens := by
  rw [calculateMatchScore_eq_div]
  split
  · exact le_refl 0
  · positivity

theorem calculateMatchScore_le_one (queryTokens docTokens : List Str) :
    calculateMatchScore queryTokens docTokens ≤ 1 := by
  rw [calculateMatchScore_eq_div]
  split
  · exact zero_le_one
  · rename_i h
    rw [div_le_one (by exact_mod_cast Nat.pos_of_ne_zero h)]
    exact_mod_cast List.countP_le_length _

theorem calculateMatchScore_nil (docTokens : List Str) :
    calculateMatchScore [] docTokens = 0 := by
  simp [calculateMatchScore]

theorem calculateMatchScore_eq_one_iff {queryTokens docTokens : List Str}
    (hq : queryTokens ≠ []) :
    calculateMatchScore queryTokens docTokens = 1 ↔
      ∀ t ∈ queryTokens, t ∈ docTokens := by
  have hlen : queryTokens.length ≠ 0 := by
    simpa using fun h => hq (List.length_eq_zero.mp h)
  rw [calculateMatchScore_eq_div]
  rw [if_neg hlen, div_eq_one_iff_eq (by exact_mod_cast hlen)]
  constructor
  · intro h
    have h' : queryTokens.countP (fun t => decide (t ∈ docTokens)) =
        queryTokens.length := by exact_mod_cast h
    intro t ht
    simpa using List.countP_eq_length.mp h' t ht
  · intro h
    have h' : queryTokens.countP (fun t => decide (t ∈ docTokens)) =
        queryTokens.length :=
      List.countP_eq_length.mpr (fun t ht => by simpa using h t ht)
    exact_mod_cast h'

theorem calculateMatchScore_eq_one {queryTokens docTokens : List Str}
    (hq : queryTokens ≠ []) (h : ∀ t ∈ queryTokens, t ∈ docTokens) :
    calculateMatchScore queryTokens docTokens = 1 :=
  (calculateMatchScore_eq_one_iff hq).mpr h

namespace InvertedIndex

/-! ## Search result membership -/

theorem mem_insertByScoreDesc {r x : SearchResult} {l : List SearchResult} :
    x ∈ insertByScoreDesc r l ↔ x = r ∨ x ∈ l := by
  induction l with
  | nil => simp [insertByScoreDesc]
  | cons y ys ih =>
      unfold insertByScoreDesc
      split
      · simp
      · simp only [List.mem_cons, ih]
        tauto

theorem mem_sortByScoreDesc_aux (l acc : List SearchResult) (x : SearchResult) :
    x ∈ l.foldl (fun acc r => insertByScoreDesc r acc) acc ↔ x ∈ acc ∨ x ∈ l := by
  induction l generalizing acc with
  | nil => simp
  | cons r rs ih =>
      simp only [List.foldl_cons, ih, mem_insertByScoreDesc, List.mem_cons]
      tauto

theorem mem_sortByScoreDesc {l : List SearchResult} {x : SearchResult} :
    x ∈ sortByScoreDesc l ↔ x ∈ l := by
  simpa [sortByScoreDesc] using mem_sortByScoreDesc_aux l [] x

/-- Everything `buildResults` records about a member of its output. -/
theorem mem_buildResults {s : InvertedIndex} {queryTokens : List Str}
    {minScore : ℚ} {ids : List Str} {r : SearchResult}
    (h : r ∈ buildResults s queryTokens minScore ids) :
    r.docId ∈ ids ∧
    s.documents.get r.docId = some r.document ∧
    r.score = calculateMatchScore queryTokens (tokensOf s r.docId) ∧
    minScore ≤ r.score ∧
    r.matchedTokens = queryTokens.filter (fun t => decide (t ∈ tokensOf s r.docId)) := by
  rcases List.mem_filterMap.mp h with ⟨id, hid, hmk⟩
  rcases hdoc : s.documents.get id with _ | document
  · rw [hdoc] at hmk; cases hmk
  · rw [hdoc] at hmk
    simp only at hmk
    split at hmk
    · rcases Option.some_inj.mp hmk with rfl
      exact ⟨hid, hdoc, rfl, by assumption, rfl⟩
    · cases hmk

/-- Conversely, an id that survives every stage yields its record. -/
theorem buildResults_mem_of {s : InvertedIndex} {queryTokens : List Str}
    {minScore : ℚ} {ids : List Str} {id : Str} {document : Document}
    (hid : id ∈ ids) (hdoc : s.documents.get id = some document)
    (hsc : minScore ≤ calculateMatchScore queryTokens (tokensOf s id)) :
    { docId := id, document := document,
      score := calculateMatchScore queryTokens (tokensOf s id),
      matchedTokens := queryTokens.filter (fun t => decide (t ∈ tokensOf s id)) :
      SearchResult } ∈ buildResults s queryTokens minScore ids := by
  apply List.mem_filterMap.mpr
  refine ⟨id, hid, ?_⟩
  rw [hdoc]
  simp only [if_pos hsc]

theorem mem_search {query : Str} {opts : SearchOptions} {s : InvertedIndex}
    {r : SearchResult} (h : r ∈ search query opts s) :
    r ∈ buildResults s (tokenize query) opts.minScore (andCandidates s (tokenize query)) := by
  simp only [search] at h
  by_cases hq : (tokenize query).isEmpty = true
  · rw [if_pos hq] at h; cases h
  · rw [if_neg hq] at h
    have h1 := List.mem_of_mem_take h
    by_cases hs : opts.sortByScore = true
    · rw [if_pos hs] at h1
      exact mem_sortByScoreDesc.mp h1
    · rw [if_neg hs] at h1
      exact h1

theorem mem_searchOr {query : Str} {opts : SearchOptions} {s : InvertedIndex}
    {r : SearchResult} (h : r ∈ searchOr query opts s) :
    r ∈ buildResults s (tokenize query) opts.minScore (orCandidates s (tokenize query)) := by
  simp only [searchOr] at h
  by_cases hq : (tokenize query).isEmpty = true
  · rw [if_pos hq] at h; cases h
  · rw [if_neg hq] at h
    exact mem_sortByScoreDesc.mp (List.mem_of_mem_take h)

end InvertedIndex


/-! ## Association-list entry lemmas -/

section EntryLemmas

variable {κ ν : Type} [DecidableEq κ]

theorem lookupFirst_mem {l : List (κ × ν)} {k : κ} {v : ν}
    (h : lookupFirst l k = some v) : (k, v) ∈ l := by
  induction l with
  | nil => cases h
  | cons e es ih =>
      unfold lookupFirst at h
      split at h
      · rename_i he
        rcases Option.some_inj.mp h with rfl
        exact List.mem_cons.mpr (Or.inl (by rw [← he]))
      · exact List.mem_cons_of_mem _ (ih h)

theorem lookupFirst_eq_some_of_mem {l : List (κ × ν)} {k : κ} {v : ν}
    (hnd : (l.map Prod.fst).Nodup) (h : (k, v) ∈ l) :
    lookupFirst l k = some v := by
  induction l with
  | nil => cases h
  | cons e es ih =>
      rcases List.mem_cons.mp h with h | h
      · subst h
        simp [lookupFirst]
      · have hk : k ∈ es.map Prod.fst := List.mem_map.mpr ⟨_, h, rfl⟩
        have hne : ¬ e.1 = k := by
          intro he
          exact (List.nodup_cons.mp (by simpa using hnd)).1 (he ▸ hk)
        simp only [lookupFirst, if_neg hne]
        exact ih (List.nodup_cons.mp (by simpa using hnd)).2 h

theorem JsMap.mem_entries_iff_get {m : JsMap κ ν} (hnd : m.keys.Nodup)
    {k : κ} {v : ν} : (k, v) ∈ m.entries ↔ m.get k = some v :=
  ⟨lookupFirst_eq_some_of_mem hnd, lookupFirst_mem⟩

theorem JsMap.mem_entries_set {m : JsMap κ ν} {k : κ} {v : ν} {e : κ × ν}
    (h : e ∈ (m.set k v).entries) : e ∈ m.entries ∨ e = (k, v) := by
  unfold JsMap.set at h
  split at h
  · rcases List.mem_map.mp h with ⟨e', he', heq⟩
    by_cases hk : e'.1 = k
    · right; rw [← heq, if_pos hk]
    · left; rwa [← heq, if_neg hk]
  · rcases List.mem_append.mp h with h | h
    · exact Or.inl h
    · right; simpa using h

theorem JsMap.mem_entries_del {m : JsMap κ ν} {k : κ} {e : κ × ν}
    (h : e ∈ (m.del k).entries) : e ∈ m.entries :=
  List.mem_filter.mp h |>.1

end EntryLemmas

namespace InvertedIndex

/-! ## State characterization: `removeDocument` -/

/-- The index fold body of `removeDocument`. -/
theorem remove_step_get (idx : JsMap Str (JsSet Str)) (docId tk t : Str) :
    ((match idx.get tk with
      | none => idx
      | some docSet =>
          let ds := docSet.del docId
          if ds.size = 0 then idx.del tk else idx.set tk ds).get t) =
    if t = tk then
      (match idx.get tk with
       | none => none
       | some docSet =>
          let ds := docSet.del docId
          if ds.size = 0 then none else some ds)
    else idx.get t := by
  rcases hg : idx.get tk with _ | docSet
  · by_cases ht : t = tk
    · subst ht; simp [hg]
    · simp [ht]
  · simp only
    by_cases hz : (docSet.del docId).size = 0
    · rw [if_pos hz, JsMap.get_del]
      by_cases ht : t = tk <;> simp [ht, hz]
    · rw [if_neg hz, JsMap.get_set]
      by_cases ht : t = tk <;> simp [ht, hz, hg]

/-- Effect of the whole `removeDocument` index fold on `get`, for a
duplicate-free token list. -/
theorem remove_fold_get (docId : Str) (L : List Str) (idx : JsMap Str (JsSet Str))
    (hnd : L.Nodup) (t : Str) :
    ((L.foldl (fun idx token =>
        match idx.get token with
        | none => idx
        | some docSet =>
            let ds := docSet.del docId
            if ds.size = 0 then idx.del token else idx.set token ds) idx).get t) =
    if t ∈ L then
      (match idx.get t with
       | none => none
       | some docSet =>
          let ds := docSet.del docId
          if ds.size = 0 then none else some ds)
    else idx.get t := by
  induction L generalizing idx with
  | nil => simp
  | cons tk L ih =>
      rcases List.nodup_cons.mp hnd with ⟨htk, hndL⟩
      rw [List.foldl_cons, ih _ hndL]
      by_cases htL : t ∈ L
      · have httk : ¬ t = tk := fun h => htk (h ▸ htL)
        rw [if_pos htL, if_pos (List.mem_cons_of_mem _ htL)]
        rw [remove_step_get idx docId tk t, if_neg httk]
      · rw [if_neg htL]
        rw [remove_step_get idx docId tk t]
        by_cases ht : t = tk
        · subst ht
          rw [if_pos rfl, if_pos (List.mem_cons_self _ _)]
        · rw [if_neg ht, if_neg (by simp [ht, htL])]

end InvertedIndex

namespace InvertedIndex

/-! ## State characterization: `removeDocument` -/

theorem removeDocument_of_none {s : InvertedIndex} {docId : Str}
    (h : s.documentTokens.get docId = none) : removeDocument docId s = s := by
  simp [removeDocument, h]

theorem postingsOf_updateStats (s : InvertedIndex) (t : Str) :
    postingsOf (updateStats s) t = postingsOf s t := rfl

theorem WF.tokensOf_nodup {s : InvertedIndex} (hwf : WF s) (d : Str) :
    (tokensOf s d).Nodup := by
  unfold tokensOf
  rcases hg : s.documentTokens.get d with _ | ts
  · simp
  · exact hwf.2.2.2.2 _ (lookupFirst_mem hg)

theorem WF.postingsOf_nodup {s : InvertedIndex} (hwf : WF s) (t : Str) :
    (postingsOf s t).Nodup := by
  unfold postingsOf
  rcases hg : s.index.get t with _ | ds
  · simp
  · exact hwf.2.1 _ (lookupFirst_mem hg)

theorem postingsOf_removeDocument {s : InvertedIndex} (hwf : WF s)
    (docId t : Str) :
    postingsOf (removeDocument docId s) t =
      if t ∈ tokensOf s docId then
        (postingsOf s t).filter (fun d => decide (d ≠ docId))
      else postingsOf s t := by
  unfold removeDocument
  rcases hg : s.documentTokens.get docId with _ | ts
  · rw [show tokensOf s docId = [] by simp [tokensOf, hg]]
    simp
  · have hts : tokensOf s docId = ts.elems := by simp [tokensOf, hg]
    have hnd : ts.elems.Nodup := hwf.2.2.2.2 _ (lookupFirst_mem hg)
    simp only [postingsOf_updateStats]
    show postingsOf
      { index := _, documents := _, documentTokens := _, stats := _ } t = _
    unfold postingsOf
    simp only
    rw [remove_fold_get docId ts.elems s.index hnd t, hts]
    by_cases ht : t ∈ ts.elems
    · rw [if_pos ht, if_pos ht]
      rcases hit : s.index.get t with _ | ds
      · simp [postingsOf, hit]
      · simp only
        have hpost : postingsOf s t = ds.elems := by simp [postingsOf, hit]
        by_cases hz : (ds.del docId).size = 0
        · rw [if_pos hz]
          have hempty : List.filter (fun y => decide (y ≠ docId)) ds.elems = [] :=
            List.length_eq_zero.mp hz
          exact hempty.symm
        · rw [if_neg hz]
          simp [JsSet.del]
    · rw [if_neg ht, if_neg ht]

theorem tokensOf_removeDocument {s : InvertedIndex} (docId d : Str) :
    tokensOf (removeDocument docId s) d =
      if d = docId then [] else tokensOf s d := by
  unfold removeDocument
  rcases hg : s.documentTokens.get docId with _ | ts
  · by_cases hd : d = docId
    · subst hd; simp [tokensOf, hg]
    · simp [hd]
  · show tokensOf
      { index := _, documents := _, documentTokens := s.documentTokens.del docId,
        stats := _ } d = _
    unfold tokensOf
    simp only [JsMap.get_del]
    by_cases hd : d = docId
    · simp [hd]
    · simp [hd]

theorem documents_get_removeDocument_some {s : InvertedIndex} {docId : Str}
    {ts : JsSet Str} (hg : s.documentTokens.get docId = some ts) (d : Str) :
    (removeDocument docId s).documents.get d =
      if d = docId then none else s.documents.get d := by
  unfold removeDocument
  rw [hg]
  show ({ index := _, documents := s.documents.del docId, documentTokens := _,
          stats := _ } : InvertedIndex).documents.get d = _
  simp [JsMap.get_del]

theorem remove_fold_keys_nodup (docId : Str) (L : List Str)
    (idx : JsMap Str (JsSet Str)) (h : idx.keys.Nodup) :
    ((L.foldl (fun idx token =>
        match idx.get token with
        | none => idx
        | some docSet =>
            let ds := docSet.del docId
            if ds.size = 0 then idx.del token else idx.set token ds) idx).keys).Nodup := by
  induction L generalizing idx with
  | nil => exact h
  | cons tk L ih =>
      rw [List.foldl_cons]
      apply ih
      rcases hit : idx.get tk with _ | ds
      · exact h
      · simp only
        by_cases hz : (ds.del docId).size = 0
        · rw [if_pos hz]; exact JsMap.nodupKeys_del h tk
        · rw [if_neg hz]; exact JsMap.nodupKeys_set h tk _

theorem remove_fold_entries_nodup (docId : Str) (L : List Str)
    (idx : JsMap Str (JsSet Str)) (h : ∀ e ∈ idx.entries, e.2.elems.Nodup) :
    ∀ e ∈ (L.foldl (fun idx token =>
        match idx.get token with
        | none => idx
        | some docSet =>
            let ds := docSet.del docId
            if ds.size = 0 then idx.del token else idx.set token ds) idx).entries,
      e.2.elems.Nodup := by
  induction L generalizing idx with
  | nil => exact h
  | cons tk L ih =>
      rw [List.foldl_cons]
      apply ih
      rcases hit : idx.get tk with _ | ds
      · exact h
      · simp only
        have hds : ds.elems.Nodup := h _ (lookupFirst_mem hit)
        by_cases hz : (ds.del docId).size = 0
        · rw [if_pos hz]
          intro e he
          exact h e (JsMap.mem_entries_del he)
        · rw [if_neg hz]
          intro e he
          rcases JsMap.mem_entries_set he with he | he
          · exact h e he
          · rw [he]
            exact JsSet.nodup_del hds docId

theorem wf_removeDocument {s : InvertedIndex} (hwf : WF s) (docId : Str) :
    WF (removeDocument docId s) := by
  unfold removeDocument
  rcases hg : s.documentTokens.get docId with _ | ts
  · exact hwf
  · refine ⟨?_, ?_, ?_, ?_, ?_⟩
    · exact remove_fold_keys_nodup docId ts.elems s.index hwf.1
    · exact remove_fold_entries_nodup docId ts.elems s.index hwf.2.1
    · exact JsMap.nodupKeys_del hwf.2.2.1 docId
    · exact JsMap.nodupKeys_del hwf.2.2.2.1 docId
    · intro e he
      exact hwf.2.2.2.2 e (JsMap.mem_entries_del he)

theorem keySync_removeDocument {s : InvertedIndex} (hsync : KeySync s)
    (docId : Str) : KeySync (removeDocument docId s) := by
  unfold removeDocument
  rcases hg : s.documentTokens.get docId with _ | ts
  · exact hsync
  · constructor
    · intro d hd
      rcases JsMap.mem_keys_del.mp hd with ⟨hd1, hd2⟩
      exact JsMap.mem_keys_del.mpr ⟨hsync.1 d hd1, hd2⟩
    · intro d hd
      rcases JsMap.mem_keys_del.mp hd with ⟨hd1, hd2⟩
      exact JsMap.mem_keys_del.mpr ⟨hsync.2 d hd1, hd2⟩

theorem invariant_removeDocument {s : InvertedIndex} (hwf : WF s)
    (hinv : Invariant s) (docId : Str) : Invariant (removeDocument docId s) := by
  intro t d
  rw [postingsOf_removeDocument hwf docId t, tokensOf_removeDocument docId d]
  by_cases ht : t ∈ tokensOf s docId
  · rw [if_pos ht]
    by_cases hd : d = docId
    · subst hd
      simp [List.mem_filter]
    · rw [if_neg hd]
      simp only [List.mem_filter, decide_eq_true_eq]
      rw [hinv t d]
      simp [hd]
  · rw [if_neg ht]
    by_cases hd : d = docId
    · subst hd
      rw [if_pos rfl]
      simp only [List.not_mem_nil, iff_false]
      intro hmem
      exact ht ((hinv t d).mp hmem)
    · rw [if_neg hd]
      exact hinv t d

theorem statsConsistent_updateStats (s : InvertedIndex) :
    StatsConsistent (updateStats s) := rfl

theorem statsConsistent_removeDocument {s : InvertedIndex}
    (hsc : StatsConsistent s) (docId : Str) :
    StatsConsistent (removeDocument docId s) := by
  unfold removeDocument
  rcases hg : s.documentTokens.get docId with _ | ts
  · exact hsc
  · exact statsConsistent_updateStats _

end InvertedIndex

namespace InvertedIndex

/-! ## State characterization: `addDocument` -/

theorem add_step_get (idx : JsMap Str (JsSet Str)) (docId tk t : Str) :
    ((match idx.get tk with
      | none => idx.set tk (JsSet.add ⟨[]⟩ docId)
      | some ds => idx.set tk (ds.add docId)).get t) =
    if t = tk then
      some ((match idx.get tk with
             | none => (⟨[]⟩ : JsSet Str)
             | some ds => ds).add docId)
    else idx.get t := by
  rcases hg : idx.get tk with _ | ds
  · rw [JsMap.get_set]
  · rw [JsMap.get_set]

theorem add_fold_get (docId : Str) (T : List Str) (idx : JsMap Str (JsSet Str))
    (hnd : T.Nodup) (t : Str) :
    ((T.foldl (fun idx token =>
        match idx.get token with
        | none => idx.set token (JsSet.add ⟨[]⟩ docId)
        | some ds => idx.set token (ds.add docId)) idx).get t) =
    if t ∈ T then
      some ((match idx.get t with
             | none => (⟨[]⟩ : JsSet Str)
             | some ds => ds).add docId)
    else idx.get t := by
  induction T generalizing idx with
  | nil => simp
  | cons tk T ih =>
      rcases List.nodup_cons.mp hnd with ⟨htk, hndT⟩
      rw [List.foldl_cons, ih _ hndT]
      by_cases htT : t ∈ T
      · have httk : ¬ t = tk := fun h => htk (h ▸ htT)
        rw [if_pos htT, if_pos (List.mem_cons_of_mem _ htT)]
        rw [add_step_get idx docId tk t, if_neg httk]
      · rw [if_neg htT]
        rw [add_step_get idx docId tk t]
        by_cases ht : t = tk
        · subst ht
          rw [if_pos rfl, if_pos (List.mem_cons_self _ _)]
        · rw [if_neg ht, if_neg (by simp [ht, htT])]

theorem add_fold_keys_nodup (docId : Str) (T : List Str)
    (idx : JsMap Str (JsSet Str)) (h : idx.keys.Nodup) :
    ((T.foldl (fun idx token =>
        match idx.get token with
        | none => idx.set token (JsSet.add ⟨[]⟩ docId)
        | some ds => idx.set token (ds.add docId)) idx).keys).Nodup := by
  induction T generalizing idx with
  | nil => exact h
  | cons tk T ih =>
      rw [List.foldl_cons]
      apply ih
      rcases hit : idx.get tk with _ | ds
      · exact JsMap.nodupKeys_set h tk _
      · exact JsMap.nodupKeys_set h tk _

theorem add_fold_entries_nodup (docId : Str) (T : List Str)
    (idx : JsMap Str (JsSet Str)) (h : ∀ e ∈ idx.entries, e.2.elems.Nodup) :
    ∀ e ∈ (T.foldl (fun idx token =>
        match idx.get token with
        | none => idx.set token (JsSet.add ⟨[]⟩ docId)
        | some ds => idx.set token (ds.add docId)) idx).entries,
      e.2.elems.Nodup := by
  induction T generalizing idx with
  | nil => exact h
  | cons tk T ih =>
      rw [List.foldl_cons]
      apply ih
      rcases hit : idx.get tk with _ | ds
      · intro e he
        rcases JsMap.mem_entries_set he with he | he
        · exact h e he
        · rw [he]
          exact JsSet.nodup_add (by simp) docId
      · intro e he
        rcases JsMap.mem_entries_set he with he | he
        · exact h e he
        · rw [he]
          exact JsSet.nodup_add (h _ (lookupFirst_mem hit)) docId

theorem items_fold_nodup (opts : TokenizeOptions) (items : List (Option Str))
    (a : JsSet Str) (ha : a.elems.Nodup) :
    ((items.foldl (fun a it =>
        match it with
        | some s => (tokenize s opts).foldl (fun a2 t => a2.add t) a
        | none => a) a).elems).Nodup := by
  induction items generalizing a with
  | nil => exact ha
  | cons it items ihi =>
      rw [List.foldl_cons]
      apply ihi
      rcases it with _ | s
      · exact ha
      · exact JsSet.nodup_ofList_aux _ _ ha

theorem extractTokens_nodup (document : Document) (fields : List Str)
    (opts : TokenizeOptions) : (extractTokens document fields opts).Nodup := by
  unfold extractTokens
  suffices h : ∀ (fs : List Str) (a : JsSet Str), a.elems.Nodup →
      ((fs.foldl (fun acc f =>
        match lookupFirst document f with
        | some (FieldValue.str s) =>
            (tokenize s opts).foldl (fun a t => a.add t) acc
        | some (FieldValue.arr items) =>
            items.foldl (fun a it =>
              match it with
              | some s => (tokenize s opts).foldl (fun a2 t => a2.add t) a
              | none => a) acc
        | _ => acc) a).elems).Nodup by
    exact h fields ⟨[]⟩ (by simp)
  intro fs
  induction fs with
  | nil => intro a ha; exact ha
  | cons f fs ih =>
      intro a ha
      rw [List.foldl_cons]
      apply ih
      rcases lookupFirst document f with _ | fv
      · exact ha
      · rcases fv with s | items | _
        · exact JsSet.nodup_ofList_aux _ _ ha
        · exact items_fold_nodup opts items a ha
        · exact ha

/-- The `s0` every `addDocument` lemma refers to: the state after the
conditional removal of an existing posting. -/
def addBase (docId : Str) (s : InvertedIndex) : InvertedIndex :=
  if s.documents.hasKey docId then removeDocument docId s else s

theorem addDocument_eq (docId : Str) (document : Document) (fields : List Str)
    (s : InvertedIndex) :
    addDocument docId document fields s =
      (let s0 := addBase docId s
       let tokens := extractTokens document fields
       updateStats
        { index := tokens.foldl (fun idx token =>
            match idx.get token with
            | none => idx.set token (JsSet.add ⟨[]⟩ docId)
            | some ds => idx.set token (ds.add docId)) s0.index
          documents := s0.documents.set docId document
          documentTokens := s0.documentTokens.set docId (JsSet.ofList tokens)
          stats := s0.stats }) := rfl

theorem postingsOf_addDocument (docId : Str) (document : Document)
    (fields : List Str) (s : InvertedIndex) (t : Str) :
    postingsOf (addDocument docId document fields s) t =
      if t ∈ extractTokens document fields then
        ((match (addBase docId s).index.get t with
          | none => (⟨[]⟩ : JsSet Str)
          | some ds => ds).add docId).elems
      else postingsOf (addBase docId s) t := by
  rw [addDocument_eq]
  show postingsOf (updateStats _) t = _
  rw [postingsOf_updateStats]
  unfold postingsOf
  simp only
  rw [add_fold_get docId _ _ (extractTokens_nodup document fields {}) t]
  by_cases ht : t ∈ extractTokens document fields
  · rw [if_pos ht, if_pos ht]
  · rw [if_neg ht, if_neg ht]

theorem mem_postingsOf_addDocument (docId : Str) (document : Document)
    (fields : List Str) (s : InvertedIndex) (t d : Str) :
    d ∈ postingsOf (addDocument docId document fields s) t ↔
      (if t ∈ extractTokens document fields then
        d ∈ postingsOf (addBase docId s) t ∨ d = docId
       else d ∈ postingsOf (addBase docId s) t) := by
  rw [postingsOf_addDocument]
  by_cases ht : t ∈ extractTokens document fields
  · rw [if_pos ht, if_pos ht]
    rcases hg : (addBase docId s).index.get t with _ | ds
    · simp [postingsOf, hg]
    · simp [postingsOf, hg]
  · rw [if_neg ht, if_neg ht]

theorem tokensOf_addDocument (docId : Str) (document : Document)
    (fields : List Str) (s : InvertedIndex) (d : Str) :
    tokensOf (addDocument docId document fields s) d =
      if d = docId then (JsSet.ofList (extractTokens document fields)).elems
      else tokensOf (addBase docId s) d := by
  rw [addDocument_eq]
  show tokensOf (updateStats _) d = _
  unfold updateStats tokensOf
  simp only [JsMap.get_set]
  by_cases hd : d = docId
  · rw [if_pos hd, if_pos hd]
  · rw [if_neg hd, if_neg hd]

theorem documents_get_addDocument (docId : Str) (document : Document)
    (fields : List Str) (s : InvertedIndex) (d : Str) :
    (addDocument docId document fields s).documents.get d =
      if d = docId then some document
      else (addBase docId s).documents.get d := by
  rw [addDocument_eq]
  show (updateStats _).documents.get d = _
  unfold updateStats
  simp only [JsMap.get_set]

theorem wf_addDocument {s : InvertedIndex} (hwf : WF s) (docId : Str)
    (document : Document) (fields : List Str) :
    WF (addDocument docId document fields s) := by
  have hwf0 : WF (addBase docId s) := by
    unfold addBase
    by_cases h : s.documents.hasKey docId = true
    · rw [if_pos h]; exact wf_removeDocument hwf docId
    · rw [if_neg h]; exact hwf
  rw [addDocument_eq]
  refine ⟨?_, ?_, ?_, ?_, ?_⟩
  · exact add_fold_keys_nodup docId _ _ hwf0.1
  · exact add_fold_entries_nodup docId _ _ hwf0.2.1
  · exact JsMap.nodupKeys_set hwf0.2.2.1 docId document
  · exact JsMap.nodupKeys_set hwf0.2.2.2.1 docId _
  · intro e he
    rcases JsMap.mem_entries_set he with he | he
    · exact hwf0.2.2.2.2 e he
    · rw [he]
      exact JsSet.nodup_ofList _

theorem keySync_addDocument {s : InvertedIndex} (hsync : KeySync s)
    (docId : Str) (document : Document) (fields : List Str) :
    KeySync (addDocument docId document fields s) := by
  have hsync0 : KeySync (addBase docId s) := by
    unfold addBase
    by_cases h : s.documents.hasKey docId = true
    · rw [if_pos h]; exact keySync_removeDocument hsync docId
    · rw [if_neg h]; exact hsync
  rw [addDocument_eq]
  constructor
  · intro d hd
    rcases (JsMap.mem_keys_set _ _ _ _).mp hd with hd | hd
    · exact (JsMap.mem_keys_set _ _ _ _).mpr (Or.inl (hsync0.1 d hd))
    · exact (JsMap.mem_keys_set _ _ _ _).mpr (Or.inr hd)
  · intro d hd
    rcases (JsMap.mem_keys_set _ _ _ _).mp hd with hd | hd
    · exact (JsMap.mem_keys_set _ _ _ _).mpr (Or.inl (hsync0.2 d hd))
    · exact (JsMap.mem_keys_set _ _ _ _).mpr (Or.inr hd)

theorem tokensOf_addBase_self {s : InvertedIndex} (hwf : WF s)
    (hsync : KeySync s) (docId : Str) :
    tokensOf (addBase docId s) docId = [] := by
  unfold addBase
  by_cases h : s.documents.hasKey docId = true
  · rw [if_pos h, tokensOf_removeDocument, if_pos rfl]
  · rw [if_neg h]
    unfold tokensOf
    rcases hg : s.documentTokens.get docId with _ | ts
    · rfl
    · exfalso
      apply h
      rw [JsMap.hasKey_iff]
      apply hsync.2
      rw [← JsMap.get_isSome_iff, hg]
      rfl

theorem invariant_addDocument {s : InvertedIndex} (hwf : WF s)
    (hsync : KeySync s) (hinv : Invariant s) (docId : Str)
    (document : Document) (fields : List Str) :
    Invariant (addDocument docId document fields s) := by
  have hwf0 : WF (addBase docId s) := by
    unfold addBase
    by_cases h : s.documents.hasKey docId = true
    · rw [if_pos h]; exact wf_removeDocument hwf docId
    · rw [if_neg h]; exact hwf
  have hinv0 : Invariant (addBase docId s) := by
    unfold addBase
    by_cases h : s.documents.hasKey docId = true
    · rw [if_pos h]; exact invariant_removeDocument hwf hinv docId
    · rw [if_neg h]; exact hinv
  have hid0 : ∀ t, docId ∉ postingsOf (addBase docId s) t := by
    intro t hmem
    have := (hinv0 t docId).mp hmem
    rw [tokensOf_addBase_self hwf hsync docId] at this
    cases this
  intro t d
  rw [mem_postingsOf_addDocument, tokensOf_addDocument]
  by_cases hd : d = docId
  · subst hd
    rw [if_pos rfl]
    by_cases ht : t ∈ extractTokens document fields
    · rw [if_pos ht]
      simp [ht, hid0 t]
    · rw [if_neg ht]
      simp [ht, hid0 t]
  · rw [if_neg hd]
    by_cases ht : t ∈ extractTokens document fields
    · rw [if_pos ht]
      rw [show (d ∈ postingsOf (addBase docId s) t ∨ d = docId) ↔
          d ∈ postingsOf (addBase docId s) t by simp [hd]]
      exact hinv0 t d
    · rw [if_neg ht]
      exact hinv0 t d

theorem statsConsistent_addDocument (s : InvertedIndex) (docId : Str)
    (document : Document) (fields : List Str) :
    StatsConsistent (addDocument docId document fields s) := by
  rw [addDocument_eq]
  exact statsConsistent_updateStats _

/-! ## The reachable-state lemmas assembled -/

theorem goodState_empty : GoodState emptyIndex := by
  refine ⟨⟨?_, ?_, ?_, ?_, ?_⟩, ⟨?_, ?_⟩, ?_⟩ <;>
    simp [emptyIndex, JsMap.keys, Invariant, postingsOf, tokensOf, JsMap.get,
      lookupFirst, KeySync]

theorem goodState_addDocument {s : InvertedIndex} (h : GoodState s)
    (docId : Str) (document : Document) (fields : List Str) :
    GoodState (addDocument docId document fields s) :=
  ⟨wf_addDocument h.1 docId document fields,
   keySync_addDocument h.2.1 docId document fields,
   invariant_addDocument h.1 h.2.1 h.2.2 docId document fields⟩

theorem goodState_removeDocument {s : InvertedIndex} (h : GoodState s)
    (docId : Str) : GoodState (removeDocument docId s) :=
  ⟨wf_removeDocument h.1 docId,
   keySync_removeDocument h.2.1 docId,
   invariant_removeDocument h.1 h.2.2 docId⟩

theorem goodState_applyOp {s : InvertedIndex} (h : GoodState s) (op : IndexOp) :
    GoodState (applyOp s op) := by
  rcases op with ⟨docId, document, fields⟩ | ⟨docId, document, fields⟩ | docId
  · exact goodState_addDocument h docId document fields
  · exact goodState_addDocument h docId document fields
  · exact goodState_removeDocument h docId

theorem goodState_runOps (ops : List IndexOp) : GoodState (runOps ops) := by
  unfold runOps
  suffices h : ∀ (l : List IndexOp) (s : InvertedIndex), GoodState s →
      GoodState (l.foldl applyOp s) by
    exact h ops emptyIndex goodState_empty
  intro l
  induction l with
  | nil => intro s hs; exact hs
  | cons op l ih =>
      intro s hs
      exact ih _ (goodState_applyOp hs op)

end InvertedIndex

namespace InvertedIndex

/-! ## Candidate-set membership -/

theorem inter_fold_mem (sets : List (List Str)) (init : List Str) (id : Str) :
    id ∈ sets.foldl (fun acc ds => acc.filter (fun id => decide (id ∈ ds))) init ↔
      id ∈ init ∧ ∀ ds ∈ sets, id ∈ ds := by
  induction sets generalizing init with
  | nil => simp
  | cons ds sets ih =>
      rw [List.foldl_cons, ih]
      simp only [List.mem_filter, decide_eq_true_eq, List.mem_cons]
      constructor
      · rintro ⟨⟨h1, h2⟩, h3⟩
        exact ⟨h1, by rintro ds' (rfl | hds') ; exact h2; exact h3 ds' hds'⟩
      · rintro ⟨h1, h2⟩
        exact ⟨⟨h1, h2 ds (Or.inl rfl)⟩, fun ds' hds' => h2 ds' (Or.inr hds')⟩

theorem mem_andCandidates {s : InvertedIndex} {queryTokens : List Str} {id : Str} :
    id ∈ andCandidates s queryTokens ↔
      queryTokens ≠ [] ∧ ∀ t ∈ queryTokens, id ∈ postingsOf s t := by
  unfold andCandidates
  rcases queryTokens with _ | ⟨q0, qrest⟩
  · simp
  · simp only [List.map_cons, ne_eq, reduceCtorEq, not_false_eq_true, true_and]
    rw [inter_fold_mem]
    constructor
    · rintro ⟨h1, h2⟩
      intro t ht
      rcases List.mem_cons.mp ht with rfl | ht
      · exact h1
      · exact h2 _ (List.mem_map.mpr ⟨t, ht, rfl⟩)
    · intro h
      refine ⟨h q0 (List.mem_cons_self _ _), ?_⟩
      intro ds hds
      rcases List.mem_map.mp hds with ⟨t, ht, rfl⟩
      exact h t (List.mem_cons_of_mem _ ht)

theorem or_fold_mem (s : InvertedIndex) (qs : List Str) (acc : JsSet Str)
    (id : Str) :
    id ∈ (qs.foldl (fun acc t =>
        match s.index.get t with
        | some ds => ds.elems.foldl (fun a id => a.add id) acc
        | none => acc) acc).elems ↔
      id ∈ acc.elems ∨ ∃ t ∈ qs, id ∈ postingsOf s t := by
  induction qs generalizing acc with
  | nil => simp
  | cons t qs ih =>
      rw [List.foldl_cons, ih]
      have hstep : id ∈ (match s.index.get t with
          | some ds => ds.elems.foldl (fun (a : JsSet Str) id => a.add id) acc
          | none => acc).elems ↔ id ∈ acc.elems ∨ id ∈ postingsOf s t := by
        rcases hg : s.index.get t with _ | ds
        · simp [postingsOf, hg]
        · rw [JsSet.mem_ofList_aux]
          simp [postingsOf, hg]
      rw [hstep]
      simp only [List.mem_cons]
      constructor
      · rintro ((h | h) | ⟨t', ht', h⟩)
        · exact Or.inl h
        · exact Or.inr ⟨t, Or.inl rfl, h⟩
        · exact Or.inr ⟨t', Or.inr ht', h⟩
      · rintro (h | ⟨t', (rfl | ht'), h⟩)
        · exact Or.inl (Or.inl h)
        · exact Or.inl (Or.inr h)
        · exact Or.inr ⟨t', ht', h⟩

theorem mem_orCandidates {s : InvertedIndex} {queryTokens : List Str} {id : Str} :
    id ∈ orCandidates s queryTokens ↔
      ∃ t ∈ queryTokens, id ∈ postingsOf s t := by
  unfold orCandidates
  rw [or_fold_mem]
  simp

/-! ## AND-search scores under the invariant -/

theorem search_score_one {s : InvertedIndex} (hinv : Invariant s)
    {query : Str} {opts : SearchOptions} {r : SearchResult}
    (h : r ∈ search query opts s) :
    r.score = 1 ∧ r.matchedTokens = tokenize query := by
  have hb := mem_buildResults (mem_search h)
  rcases mem_andCandidates.mp hb.1 with ⟨hq, hall⟩
  have htok : ∀ t ∈ tokenize query, t ∈ tokensOf s r.docId := by
    intro t ht
    exact (hinv t r.docId).mp (hall t ht)
  constructor
  · rw [hb.2.2.1]
    exact calculateMatchScore_eq_one hq htok
  · rw [hb.2.2.2.2]
    apply List.filter_eq_self.mpr
    intro t ht
    simpa using htok t ht

theorem andCandidates_minScore {s : InvertedIndex} (hinv : Invariant s)
    {query : Str} {id : Str} (h : id ∈ andCandidates s (tokenize query)) :
    mkRat 1 10 ≤ calculateMatchScore (tokenize query) (tokensOf s id) := by
  rcases mem_andCandidates.mp h with ⟨hq, hall⟩
  rw [calculateMatchScore_eq_one hq (fun t ht => (hinv t id).mp (hall t ht))]
  rw [Rat.mkRat_eq_div]
  norm_num

end InvertedIndex

namespace InvertedIndex

theorem goodState_sampleIndex : GoodState sampleIndex :=
  goodState_addDocument
    (goodState_addDocument goodState_empty "1".data sampleDoc1 ["title".data])
    "2".data sampleDoc2 ["title".data]

end InvertedIndex

/-! ## Claim theorems -/

/-- C1: For every sequence of `addDocument`/`updateDocument`/`removeDocument`
calls starting from the empty index, the bidirectional consistency invariant
holds in the resulting state: a document id is in a token's posting set iff
that token is in that document's token set (no orphaned postings, no missing
postings). -/
theorem C1_bidirectional_invariant (ops : List IndexOp) :
    InvertedIndex.Invariant (runOps ops) :=
  (InvertedIndex.goodState_runOps ops).2.2

/-- C6: Every score returned by `search` or `searchOr` lies in `[0, 1]`; a
document whose token set contains every query token scores exactly `1`; and
`calculateMatchScore` of an empty query-token list is `0`. -/
theorem C6_score_bounds :
    (∀ (s : InvertedIndex) (query : Str) (opts : InvertedIndex.SearchOptions),
      (∀ r ∈ InvertedIndex.search query opts s, 0 ≤ r.score ∧ r.score ≤ 1) ∧
      (∀ r ∈ InvertedIndex.searchOr query opts s, 0 ≤ r.score ∧ r.score ≤ 1)) ∧
    (∀ queryTokens docTokens : List Str, queryTokens ≠ [] →
      (∀ t ∈ queryTokens, t ∈ docTokens) →
      calculateMatchScore queryTokens docTokens = 1) ∧
    (∀ docTokens : List Str, calculateMatchScore [] docTokens = 0) := by
  refine ⟨fun s query opts => ⟨fun r hr => ?_, fun r hr => ?_⟩,
    fun q d hq hall => calculateMatchScore_eq_one hq hall,
    fun d => calculateMatchScore_nil d⟩
  · have hb := InvertedIndex.mem_buildResults (InvertedIndex.mem_search hr)
    rw [hb.2.2.1]
    exact ⟨calculateMatchScore_nonneg _ _, calculateMatchScore_le_one _ _⟩
  · have hb := InvertedIndex.mem_buildResults (InvertedIndex.mem_searchOr hr)
    rw [hb.2.2.1]
    exact ⟨calculateMatchScore_nonneg _ _, calculateMatchScore_le_one _ _⟩

/-- Witness for C6 at the two-document sample index and concrete token lists. -/
theorem C6_score_bounds_witness :
    (0 ≤ (⟨"1".data, sampleDoc1, 1, ["管理".data]⟩ : InvertedIndex.SearchResult).score ∧
      (⟨"1".data, sampleDoc1, 1, ["管理".data]⟩ : InvertedIndex.SearchResult).score ≤ 1) ∧
    calculateMatchScore ["ab".data] ["ab".data] = 1 ∧
    calculateMatchScore [] ["ab".data] = 0 :=
  ⟨(C6_score_bounds.1 sampleIndex "管理".data {}).1 _ (by decide),
   C6_score_bounds.2.1 ["ab".data] ["ab".data] (by decide) (by decide),
   C6_score_bounds.2.2 ["ab".data]⟩

/-- C10: In a state satisfying the bidirectional invariant, under default
options every record returned by AND `search` has score exactly `1` and its
`matchedTokens` equal the full query token list, and the candidate score is
always at least the default `minScore` of `0.1` (the filter never excludes an
AND candidate). -/
theorem C10_and_search_scores (s : InvertedIndex) (query : Str)
    (hinv : InvertedIndex.Invariant s) :
    (∀ r ∈ InvertedIndex.search query {} s,
      r.score = 1 ∧ r.matchedTokens = tokenize query) ∧
    (∀ id ∈ InvertedIndex.andCandidates s (tokenize query),
      mkRat 1 10 ≤ calculateMatchScore (tokenize query) (InvertedIndex.tokensOf s id)) :=
  ⟨fun _ hr => InvertedIndex.search_score_one hinv hr,
   fun _ hid => InvertedIndex.andCandidates_minScore hinv hid⟩

/-- Witness for C10 at the two-document sample index. -/
theorem C10_and_search_scores_witness :
    (⟨"1".data, sampleDoc1, 1, ["管理".data]⟩ : InvertedIndex.SearchResult).score = 1 ∧
    (⟨"1".data, sampleDoc1, 1, ["管理".data]⟩ : InvertedIndex.SearchResult).matchedTokens =
      tokenize "管理".data :=
  (C10_and_search_scores sampleIndex "管理".data
    InvertedIndex.goodState_sampleIndex.2.2).1 _ (by decide)

/-! ## Degenerate queries (C7) -/

theorem jsWhitespace_mem (c : Char) (h : jsWhitespace c = true) :
    c ∈ jsWhitespaceChars := by
  unfold jsWhitespace at h
  exact of_decide_eq_true h

theorem jsWhitespace_jsToLower (c : Char) (h : jsWhitespace c = true) :
    jsWhitespace (jsToLower c) = true := by
  have hc := jsWhitespace_mem c h
  fin_cases hc <;> decide

theorem jsWhitespace_norm_step (c : Char) (h : jsWhitespace c = true) :
    jsWhitespace (if toHalfwidth (jsToLower c) = ideographicSpace then ' '
      else toHalfwidth (jsToLower c)) = true := by
  have hc := jsWhitespace_mem c h
  fin_cases hc <;> decide

theorem collapseWs_all_ws :
    ∀ (l : Str), (∀ c ∈ l, jsWhitespace c = true) →
      collapseWs l = [] ∨ collapseWs l = [' ']
  | [], _ => Or.inl rfl
  | [c], h => by
      right
      simp [collapseWs, h c (by simp)]
  | c :: d :: rest, h => by
      have hc := h c (by simp)
      have hd := h d (by simp)
      have ih := collapseWs_all_ws (d :: rest)
        (fun x hx => h x (List.mem_cons_of_mem _ hx))
      simpa [collapseWs, hc, hd] using ih

theorem trimWs_all_ws (l : Str) (h : ∀ c ∈ l, jsWhitespace c = true) :
    trimWs l = [] := by
  unfold trimWs
  rw [List.dropWhile_eq_nil_iff.mpr (fun x hx => h x hx)]
  simp

theorem normalizeText_all_ws (text : Str)
    (h : ∀ c ∈ text, jsWhitespace c = true) : normalizeText text = [] := by
  unfold normalizeText
  split
  · rfl
  · set l := ((text.map jsToLower).map toHalfwidth).map
      (fun c => if c = ideographicSpace then ' ' else c) with hl
    have hws : ∀ c ∈ l, jsWhitespace c = true := by
      intro c hc
      rw [hl] at hc
      rcases List.mem_map.mp hc with ⟨c1, hc1, rfl⟩
      rcases List.mem_map.mp hc1 with ⟨c2, hc2, rfl⟩
      rcases List.mem_map.mp hc2 with ⟨c3, hc3, rfl⟩
      exact jsWhitespace_norm_step c3 (h c3 hc3)
    rcases collapseWs_all_ws l hws with hcl | hcl
    · rw [hcl]; rfl
    · rw [hcl]
      apply trimWs_all_ws
      intro c hc
      rcases List.mem_singleton.mp hc with rfl
      decide

namespace InvertedIndex

theorem search_empty_query {query : Str} (h : tokenize query = [])
    (opts : SearchOptions) (s : InvertedIndex) : search query opts s = [] := by
  simp [search, h]

theorem searchOr_empty_query {query : Str} (h : tokenize query = [])
    (opts : SearchOptions) (s : InvertedIndex) : searchOr query opts s = [] := by
  simp [searchOr, h]

theorem tokenize_of_normalize_nil {query : Str} (h : normalizeText query = []) :
    tokenize query = [] := by
  simp [tokenize, h]

end InvertedIndex

/-- C7: For every index state and every degenerate query (empty or
whitespace-only, hence normalizing to the empty string), `search`, `searchOr`
and `searchPrefix` each return an empty result list. -/
theorem C7_degenerate_queries (s : InvertedIndex) (query : Str)
    (opts : InvertedIndex.SearchOptions)
    (h : ∀ c ∈ query, jsWhitespace c = true) :
    InvertedIndex.search query opts s = [] ∧
    InvertedIndex.searchOr query opts s = [] ∧
    InvertedIndex.searchPrefix query opts s = [] := by
  have htok : tokenize query = [] :=
    InvertedIndex.tokenize_of_normalize_nil (normalizeText_all_ws query h)
  refine ⟨InvertedIndex.search_empty_query htok opts s,
    InvertedIndex.searchOr_empty_query htok opts s, ?_⟩
  unfold InvertedIndex.searchPrefix
  have hws : ∀ c ∈ query.map jsToLower, jsWhitespace c = true := by
    intro c hc
    rcases List.mem_map.mp hc with ⟨c1, hc1, rfl⟩
    exact jsWhitespace_jsToLower c1 (h c1 hc1)
  rw [trimWs_all_ws _ hws]
  simp

/-- Witness for C7: a whitespace-only query against the sample index. -/
theorem C7_degenerate_queries_witness :
    InvertedIndex.search "  ".data {} sampleIndex = [] ∧
    InvertedIndex.searchOr "  ".data {} sampleIndex = [] ∧
    InvertedIndex.searchPrefix "  ".data {} sampleIndex = [] :=
  C7_degenerate_queries sampleIndex "  ".data {} (by decide)

/-! ## Import behaviour (C2) -/

/-- C2 counterexample: `import` validates nothing.  A structurally invalid
input (missing `index` array) throws after `clear()`, so the previous
contents (document `"1"` of the sample index) are lost rather than kept
intact; and a schema-shaped but inconsistent input is installed verbatim,
leaving a state that violates the bidirectional invariant. -/
theorem C2_import_counterexample :
    ((InvertedIndex.importData
        { index := none, documents := some [], documentTokens := some [] }
        sampleIndex).2 = false ∧
      (InvertedIndex.importData
        { index := none, documents := some [], documentTokens := some [] }
        sampleIndex).1.documents.get "1".data = none ∧
      sampleIndex.documents.get "1".data = some sampleDoc1) ∧
    ((InvertedIndex.importData
        { index := some [("ab".data, ["d1".data])], documents := some [],
          documentTokens := some [] } sampleIndex).2 = true ∧
      ¬ InvertedIndex.Invariant (InvertedIndex.importData
        { index := some [("ab".data, ["d1".data])], documents := some [],
          documentTokens := some [] } sampleIndex).1) := by
  refine ⟨⟨by decide, by decide, by decide⟩, by decide, ?_⟩
  intro hinv
  have h1 := (hinv "ab".data "d1".data).mp (by decide)
  revert h1
  decide

/-- C2 amended: `import` starts by clearing the index, so its outcome (final
state and whether it aborts) is entirely independent of the previous contents;
nothing of the prior index survives, whether or not the input is valid. -/
theorem C2_import_ignores_previous_state (data : InvertedIndex.ExportData)
    (s₁ s₂ : InvertedIndex) :
    InvertedIndex.importData data s₁ = InvertedIndex.importData data s₂ := rfl


/-! ## Export/import round trip (C4) -/

theorem foldl_congr_fn {α β : Type} (l : List α) (f g : β → α → β) (b : β)
    (h : ∀ x ∈ l, ∀ acc, f acc x = g acc x) : l.foldl f b = l.foldl g b := by
  induction l generalizing b with
  | nil => rfl
  | cons x xs ih =>
      rw [List.foldl_cons, List.foldl_cons, h x (List.mem_cons_self _ _) b]
      exact ih _ (fun y hy acc => h y (List.mem_cons_of_mem _ hy) acc)

section SetFold

variable {κ ν : Type} [DecidableEq κ]

theorem setFold_append : ∀ (l : List (κ × ν)) (m : JsMap κ ν),
    (∀ e ∈ l, e.1 ∉ m.keys) → (l.map Prod.fst).Nodup →
    l.foldl (fun m e => m.set e.1 e.2) m = ⟨m.entries ++ l⟩
  | [], m, _, _ => by simp
  | e :: es, m, h, hnd => by
      rcases e with ⟨k, v⟩
      have hnd' : k ∉ es.map Prod.fst ∧ (es.map Prod.fst).Nodup := by
        rw [List.map_cons] at hnd
        exact List.nodup_cons.mp hnd
      have hk : k ∉ m.keys := h (k, v) (List.mem_cons_self _ _)
      have hset : m.set k v = ⟨m.entries ++ [(k, v)]⟩ := by
        unfold JsMap.set
        rw [if_neg ?_]
        intro hany
        rcases List.any_eq_true.mp hany with ⟨e', he', hek⟩
        exact hk (List.mem_map.mpr ⟨e', he', by simpa using hek⟩)
      rw [List.foldl_cons, hset,
        setFold_append es ⟨m.entries ++ [(k, v)]⟩ ?_ hnd'.2]
      · simp
      · intro e' he'
        have h1 : e'.1 ∉ m.keys := h e' (List.mem_cons_of_mem _ he')
        have h2 : ¬ e'.1 = k := by
          intro hek
          apply hnd'.1
          rw [← hek]
          exact List.mem_map.mpr ⟨e', he', rfl⟩
        simp only [JsMap.keys, List.map_append]
        rw [List.mem_append]
        rintro (hmem | hmem)
        · exact h1 hmem
        · exact h2 (by simpa using hmem)

/-- Rebuilding a set-valued map from its exported entries reproduces it. -/
theorem setFold_rebuild (m : JsMap κ (JsSet ν)) [DecidableEq ν]
    (hkeys : m.keys.Nodup) (hvals : ∀ e ∈ m.entries, e.2.elems.Nodup) :
    (m.entries.map (fun e => (e.1, e.2.elems))).foldl
      (fun acc e => acc.set e.1 (JsSet.ofList e.2)) (⟨[]⟩ : JsMap κ (JsSet ν)) = m := by
  rw [List.foldl_map]
  rw [foldl_congr_fn _ _ (fun acc e => acc.set e.1 e.2) _ ?_]
  · rw [setFold_append _ _ (by simp [JsMap.keys]) hkeys]
    simp
  · intro e he acc
    show acc.set e.1 (JsSet.ofList e.2.elems) = acc.set e.1 e.2
    rw [JsSet.ofList_eq_self (hvals e he)]

end SetFold

namespace InvertedIndex

theorem importData_exportData {s : InvertedIndex} (hwf : WF s)
    (hsc : StatsConsistent s) : importData (exportData s) s = (s, true) := by
  have hidx := setFold_rebuild s.index hwf.1 hwf.2.1
  have hdocs : s.documents.entries.foldl (fun m e => m.set e.1 e.2)
      (⟨[]⟩ : JsMap Str Document) = s.documents := by
    rw [setFold_append _ _ (by simp [JsMap.keys]) hwf.2.2.1]
    simp
  have hdt := setFold_rebuild s.documentTokens hwf.2.2.2.1 hwf.2.2.2.2
  show (updateStats
    { index := (s.index.entries.map (fun e => (e.1, e.2.elems))).foldl
        (fun acc e => acc.set e.1 (JsSet.ofList e.2)) (clear s).index
      documents := s.documents.entries.foldl (fun m e => m.set e.1 e.2)
        (clear s).documents
      documentTokens := (s.documentTokens.entries.map (fun e => (e.1, e.2.elems))).foldl
        (fun acc e => acc.set e.1 (JsSet.ofList e.2)) (clear s).documentTokens
      stats := (clear s).stats }, true) = (s, true)
  have hclear1 : (clear s).index = ⟨[]⟩ := rfl
  have hclear2 : (clear s).documents = ⟨[]⟩ := rfl
  have hclear3 : (clear s).documentTokens = ⟨[]⟩ := rfl
  rw [hclear1, hclear2, hclear3, hidx, hdocs, hdt]
  have hs : s = InvertedIndex.mk s.index s.documents s.documentTokens
      (computeStats s) := by
    conv_lhs => rw [show s = InvertedIndex.mk s.index s.documents s.documentTokens
      s.stats from rfl]
    rw [hsc]
  conv_rhs => rw [hs]
  rfl

end InvertedIndex

/-- C4: For every well-formed index state whose stored stats match the maps
(as holds for every reachable state), `import(export())` yields an index whose
`search`, `searchOr` and `searchPrefix` results are identical to the
original's for every query and options, and whose `getStats()` equals the
original's. -/
theorem C4_export_import_roundtrip (s : InvertedIndex)
    (hwf : InvertedIndex.WF s) (hsc : InvertedIndex.StatsConsistent s) :
    (∀ (query : Str) (opts : InvertedIndex.SearchOptions),
      InvertedIndex.search query opts
        (InvertedIndex.importData (InvertedIndex.exportData s) s).1 =
      InvertedIndex.search query opts s) ∧
    (∀ (query : Str) (opts : InvertedIndex.SearchOptions),
      InvertedIndex.searchOr query opts
        (InvertedIndex.importData (InvertedIndex.exportData s) s).1 =
      InvertedIndex.searchOr query opts s) ∧
    (∀ (pfx : Str) (opts : InvertedIndex.SearchOptions),
      InvertedIndex.searchPrefix pfx opts
        (InvertedIndex.importData (InvertedIndex.exportData s) s).1 =
      InvertedIndex.searchPrefix pfx opts s) ∧
    InvertedIndex.getStats
      (InvertedIndex.importData (InvertedIndex.exportData s) s).1 =
      InvertedIndex.getStats s := by
  rw [InvertedIndex.importData_exportData hwf hsc]
  exact ⟨fun _ _ => rfl, fun _ _ => rfl, fun _ _ => rfl, rfl⟩

/-- Witness for C4 at the two-document sample index. -/
theorem C4_export_import_roundtrip_witness :
    InvertedIndex.search "管理".data {}
      (InvertedIndex.importData (InvertedIndex.exportData sampleIndex) sampleIndex).1 =
      InvertedIndex.search "管理".data {} sampleIndex ∧
    InvertedIndex.getStats
      (InvertedIndex.importData (InvertedIndex.exportData sampleIndex) sampleIndex).1 =
      InvertedIndex.getStats sampleIndex :=
  ⟨(C4_export_import_roundtrip sampleIndex (by decide) (by decide)).1 "管理".data {},
   (C4_export_import_roundtrip sampleIndex (by decide) (by decide)).2.2.2⟩

/-! ## Idempotent re-indexing (C5) -/

theorem JsMap.set_entries_of_not_mem {κ ν : Type} [DecidableEq κ]
    {m : JsMap κ ν} {k : κ} (hk : k ∉ m.keys) (v : ν) :
    (m.set k v).entries = m.entries ++ [(k, v)] := by
  unfold JsMap.set
  rw [if_neg ?_]
  intro hany
  rcases List.any_eq_true.mp hany with ⟨e, he, hek⟩
  exact hk (List.mem_map.mpr ⟨e, he, by simpa using hek⟩)

theorem nodup_length_eq {α : Type} [DecidableEq α] {l₁ l₂ : List α}
    (h₁ : l₁.Nodup) (h₂ : l₂.Nodup) (h : ∀ x, x ∈ l₁ ↔ x ∈ l₂) :
    l₁.length = l₂.length := by
  have hfs : l₁.toFinset = l₂.toFinset := by
    apply Finset.ext
    intro a
    rw [List.mem_toFinset, List.mem_toFinset]
    exact h a
  calc l₁.length = l₁.toFinset.card := (List.toFinset_card_of_nodup h₁).symm
    _ = l₂.toFinset.card := by rw [hfs]
    _ = l₂.length := List.toFinset_card_of_nodup h₂

namespace InvertedIndex

theorem index_get_addDocument (docId : Str) (document : Document)
    (fields : List Str) (s : InvertedIndex) (t : Str) :
    (addDocument docId document fields s).index.get t =
      if t ∈ extractTokens document fields then
        some ((match (addBase docId s).index.get t with
               | none => (⟨[]⟩ : JsSet Str)
               | some ds => ds).add docId)
      else (addBase docId s).index.get t := by
  rw [addDocument_eq]
  show (updateStats _).index.get t = _
  unfold updateStats
  exact add_fold_get docId _ _ (extractTokens_nodup document fields {}) t

theorem documents_hasKey_addDocument (docId : Str) (document : Document)
    (fields : List Str) (s : InvertedIndex) :
    (addDocument docId document fields s).documents.hasKey docId = true := by
  rw [JsMap.hasKey_iff, ← JsMap.get_isSome_iff, documents_get_addDocument,
    if_pos rfl]
  rfl

theorem documentTokens_get_addDocument_self (docId : Str) (document : Document)
    (fields : List Str) (s : InvertedIndex) :
    (addDocument docId document fields s).documentTokens.get docId =
      some (JsSet.ofList (extractTokens document fields)) := by
  rw [addDocument_eq]
  show (updateStats _).documentTokens.get docId = _
  unfold updateStats
  simp [JsMap.get_set]

theorem addBase_documents_not_mem {s : InvertedIndex} (hsync : KeySync s)
    (docId : Str) : docId ∉ (addBase docId s).documents.keys := by
  unfold addBase
  by_cases h : s.documents.hasKey docId = true
  · rw [if_pos h]
    have hmem : docId ∈ s.documentTokens.keys :=
      hsync.1 docId (JsMap.hasKey_iff.mp h)
    rcases hg : s.documentTokens.get docId with _ | ts
    · exact absurd (JsMap.get_eq_none_iff.mp hg) (by simpa using hmem)
    · intro hk
      rcases JsMap.mem_keys_del.mp
        (by rw [show (removeDocument docId s).documents =
          s.documents.del docId from by unfold removeDocument; rw [hg]; rfl] at hk
            exact hk) with ⟨_, hne⟩
      exact hne rfl
  · rw [if_neg h]
    intro hk
    exact h (JsMap.hasKey_iff.mpr hk)

theorem addBase_documentTokens_not_mem {s : InvertedIndex} (hsync : KeySync s)
    (docId : Str) : docId ∉ (addBase docId s).documentTokens.keys := by
  unfold addBase
  by_cases h : s.documents.hasKey docId = true
  · rw [if_pos h]
    have hmem : docId ∈ s.documentTokens.keys :=
      hsync.1 docId (JsMap.hasKey_iff.mp h)
    rcases hg : s.documentTokens.get docId with _ | ts
    · exact absurd (JsMap.get_eq_none_iff.mp hg) (by simpa using hmem)
    · intro hk
      rcases JsMap.mem_keys_del.mp
        (by rw [show (removeDocument docId s).documentTokens =
          s.documentTokens.del docId from by unfold removeDocument; rw [hg]; rfl] at hk
            exact hk) with ⟨_, hne⟩
      exact hne rfl
  · rw [if_neg h]
    intro hk
    exact h (JsMap.hasKey_iff.mpr (hsync.2 docId hk))

theorem documents_addDocument_entries {s : InvertedIndex} (hsync : KeySync s)
    (docId : Str) (document : Document) (fields : List Str) :
    (addDocument docId document fields s).documents.entries =
      (addBase docId s).documents.entries ++ [(docId, document)] := by
  rw [addDocument_eq]
  show (updateStats _).documents.entries = _
  unfold updateStats
  exact JsMap.set_entries_of_not_mem (addBase_documents_not_mem hsync docId) document

theorem documentTokens_addDocument_entries {s : InvertedIndex} (hsync : KeySync s)
    (docId : Str) (document : Document) (fields : List Str) :
    (addDocument docId document fields s).documentTokens.entries =
      (addBase docId s).documentTokens.entries ++
        [(docId, JsSet.ofList (extractTokens document fields))] := by
  rw [addDocument_eq]
  show (updateStats _).documentTokens.entries = _
  unfold updateStats
  exact JsMap.set_entries_of_not_mem (addBase_documentTokens_not_mem hsync docId) _

end InvertedIndex

theorem JsMap.eq_of_entries {κ ν : Type} {m₁ m₂ : JsMap κ ν}
    (h : m₁.entries = m₂.entries) : m₁ = m₂ := by
  cases m₁; cases m₂; simpa using h

namespace InvertedIndex

theorem addBase_of_hasKey {s : InvertedIndex} {docId : Str}
    (h : s.documents.hasKey docId = true) :
    addBase docId s = removeDocument docId s := by
  unfold addBase
  rw [if_pos h]

theorem removeDocument_documents_of_some {s : InvertedIndex} {docId : Str}
    {ts : JsSet Str} (hg : s.documentTokens.get docId = some ts) :
    (removeDocument docId s).documents = s.documents.del docId := by
  unfold removeDocument
  rw [hg]
  rfl

theorem removeDocument_documentTokens_of_some {s : InvertedIndex} {docId : Str}
    {ts : JsSet Str} (hg : s.documentTokens.get docId = some ts) :
    (removeDocument docId s).documentTokens = s.documentTokens.del docId := by
  unfold removeDocument
  rw [hg]
  rfl

theorem removeDocument_index_of_some {s : InvertedIndex} {docId : Str}
    {ts : JsSet Str} (hg : s.documentTokens.get docId = some ts) :
    (removeDocument docId s).index =
      ts.elems.foldl (fun idx token =>
        match idx.get token with
        | none => idx
        | some docSet =>
            let ds := docSet.del docId
            if ds.size = 0 then idx.del token else idx.set token ds) s.index := by
  unfold removeDocument
  rw [hg]
  rfl

theorem documents_add_twice {s : InvertedIndex} (hwf : WF s) (hsync : KeySync s)
    (docId : Str) (document : Document) (fields : List Str) :
    (addDocument docId document fields
      (addDocument docId document fields s)).documents =
    (addDocument docId document fields s).documents := by
  set s1 := addDocument docId document fields s with hs1
  have hsync1 : KeySync s1 := keySync_addDocument hsync docId document fields
  have hg1 : s1.documentTokens.get docId =
      some (JsSet.ofList (extractTokens document fields)) :=
    documentTokens_get_addDocument_self docId document fields s
  have hB : ∀ e ∈ (addBase docId s).documents.entries, ¬ e.1 = docId := by
    intro e he hek
    exact addBase_documents_not_mem hsync docId
      (List.mem_map.mpr ⟨e, he, hek⟩)
  apply JsMap.eq_of_entries
  rw [documents_addDocument_entries hsync1 docId document fields,
    addBase_of_hasKey (documents_hasKey_addDocument docId document fields s),
    removeDocument_documents_of_some hg1]
  show ((s1.documents.del docId).entries ++ [(docId, document)]) =
    s1.documents.entries
  unfold JsMap.del
  rw [show s1.documents.entries =
    (addBase docId s).documents.entries ++ [(docId, document)] from
      documents_addDocument_entries hsync docId document fields]
  simp only [List.filter_append]
  rw [List.filter_eq_self.mpr (fun e he => by simpa using hB e he)]
  simp

theorem documentTokens_add_twice {s : InvertedIndex} (hwf : WF s)
    (hsync : KeySync s) (docId : Str) (document : Document) (fields : List Str) :
    (addDocument docId document fields
      (addDocument docId document fields s)).documentTokens =
    (addDocument docId document fields s).documentTokens := by
  set s1 := addDocument docId document fields s with hs1
  have hsync1 : KeySync s1 := keySync_addDocument hsync docId document fields
  have hg1 : s1.documentTokens.get docId =
      some (JsSet.ofList (extractTokens document fields)) :=
    documentTokens_get_addDocument_self docId document fields s
  have hB : ∀ e ∈ (addBase docId s).documentTokens.entries, ¬ e.1 = docId := by
    intro e he hek
    exact addBase_documentTokens_not_mem hsync docId
      (List.mem_map.mpr ⟨e, he, hek⟩)
  apply JsMap.eq_of_entries
  rw [documentTokens_addDocument_entries hsync1 docId document fields,
    addBase_of_hasKey (documents_hasKey_addDocument docId document fields s),
    removeDocument_documentTokens_of_some hg1]
  show ((s1.documentTokens.del docId).entries ++
      [(docId, JsSet.ofList (extractTokens document fields))]) =
    s1.documentTokens.entries
  unfold JsMap.del
  rw [show s1.documentTokens.entries =
    (addBase docId s).documentTokens.entries ++
      [(docId, JsSet.ofList (extractTokens document fields))] from
      documentTokens_addDocument_entries hsync docId document fields]
  simp only [List.filter_append]
  rw [List.filter_eq_self.mpr (fun e he => by simpa using hB e he)]
  simp

end InvertedIndex

namespace InvertedIndex

theorem index_add_twice {s : InvertedIndex} (hwf : WF s) (hsync : KeySync s)
    (docId : Str) (document : Document) (fields : List Str) (t : Str) :
    (((addDocument docId document fields
        (addDocument docId document fields s)).index.get t).isSome =
      ((addDocument docId document fields s).index.get t).isSome) ∧
    ∀ d, (d ∈ postingsOf (addDocument docId document fields
            (addDocument docId document fields s)) t ↔
          d ∈ postingsOf (addDocument docId document fields s) t) := by
  set s1 := addDocument docId document fields s with hs1
  set T := extractTokens document fields with hT
  have hTnd : T.Nodup := extractTokens_nodup document fields {}
  have hg1 : s1.documentTokens.get docId = some (JsSet.ofList T) :=
    documentTokens_get_addDocument_self docId document fields s
  have hbase2 : addBase docId s1 = removeDocument docId s1 :=
    addBase_of_hasKey (documents_hasKey_addDocument docId document fields s)
  have holT : (JsSet.ofList T).elems = T := by
    rw [JsSet.ofList_eq_self hTnd]
  have hbase2get : ∀ u, (addBase docId s1).index.get u =
      if u ∈ T then
        (match s1.index.get u with
         | none => none
         | some docSet =>
            let ds := docSet.del docId
            if ds.size = 0 then none else some ds)
      else s1.index.get u := by
    intro u
    rw [hbase2, removeDocument_index_of_some hg1, holT]
    exact remove_fold_get docId T s1.index hTnd u
  have hs2get : ∀ u, (addDocument docId document fields s1).index.get u =
      if u ∈ T then
        some ((match (addBase docId s1).index.get u with
               | none => (⟨[]⟩ : JsSet Str)
               | some ds => ds).add docId)
      else (addBase docId s1).index.get u :=
    fun u => index_get_addDocument docId document fields s1 u
  by_cases htT : t ∈ T
  · have hs1some : ∃ P1, s1.index.get t = some P1 ∧ docId ∈ P1.elems := by
      rw [hs1, index_get_addDocument docId document fields s t, if_pos htT]
      exact ⟨_, rfl, JsSet.mem_add.mpr (Or.inr rfl)⟩
    rcases hs1some with ⟨P1, hP1, hidP1⟩
    constructor
    · rw [hs2get t, if_pos htT, hP1]
      rfl
    · intro d
      unfold postingsOf
      rw [hs2get t, if_pos htT, hbase2get t, if_pos htT, hP1]
      simp only
      by_cases hz : (P1.del docId).size = 0
      · rw [if_pos hz]
        have hall : ∀ x ∈ P1.elems, x = docId := by
          have hfil := List.filter_eq_nil_iff.mp (List.length_eq_zero.mp hz)
          intro x hx
          simpa using hfil x hx
        simp only [JsSet.mem_add]
        constructor
        · rintro (h | rfl)
          · simp at h
          · exact hidP1
        · intro hd
          exact Or.inr (hall d hd)
      · rw [if_neg hz]
        simp only [JsSet.mem_add, JsSet.mem_del]
        constructor
        · rintro (⟨h1, _⟩ | rfl)
          · exact h1
          · exact hidP1
        · intro hd
          by_cases hdid : d = docId
          · exact Or.inr hdid
          · exact Or.inl ⟨hd, hdid⟩
  · have heq : (addDocument docId document fields s1).index.get t =
        s1.index.get t := by
      rw [hs2get t, if_neg htT, hbase2get t, if_neg htT]
    constructor
    · rw [heq]
    · intro d
      unfold postingsOf
      rw [heq]

theorem index_size_add_twice {s : InvertedIndex} (hwf : WF s) (hsync : KeySync s)
    (docId : Str) (document : Document) (fields : List Str) :
    (addDocument docId document fields
      (addDocument docId document fields s)).index.size =
    (addDocument docId document fields s).index.size := by
  have hwf1 : WF (addDocument docId document fields s) :=
    wf_addDocument hwf docId document fields
  have hwf2 : WF (addDocument docId document fields
      (addDocument docId document fields s)) :=
    wf_addDocument hwf1 docId document fields
  have hkeys := nodup_length_eq hwf2.1 hwf1.1 (fun t => by
    rw [← JsMap.get_isSome_iff, ← JsMap.get_isSome_iff]
    rw [(index_add_twice hwf hsync docId document fields t).1])
  have e1 : ∀ (m : JsMap Str (JsSet Str)), m.entries.length = m.keys.length := by
    intro m
    simp [JsMap.keys]
  unfold JsMap.size
  rw [e1, e1, hkeys]

theorem stats_add_twice {s : InvertedIndex} (hwf : WF s) (hsync : KeySync s)
    (docId : Str) (document : Document) (fields : List Str) :
    (addDocument docId document fields
      (addDocument docId document fields s)).stats =
    (addDocument docId document fields s).stats := by
  rw [show (addDocument docId document fields
      (addDocument docId document fields s)).stats =
    computeStats (addDocument docId document fields
      (addDocument docId document fields s)) from
      statsConsistent_addDocument _ docId document fields]
  rw [show (addDocument docId document fields s).stats =
    computeStats (addDocument docId document fields s) from
      statsConsistent_addDocument s docId document fields]
  unfold computeStats
  rw [documents_add_twice hwf hsync docId document fields,
    documentTokens_add_twice hwf hsync docId document fields,
    index_size_add_twice hwf hsync docId document fields]

end InvertedIndex

/-- C5: For every well-formed index state, calling
`addDocument(id, doc, fields)` twice in succession leaves the index in the
same state as calling it once, viewed extensionally (same three maps as
key-to-membership mappings, same stats). -/
theorem C5_addDocument_idempotent (s : InvertedIndex) (docId : Str)
    (document : Document) (fields : List Str)
    (hwf : InvertedIndex.WF s) (hsync : InvertedIndex.KeySync s) :
    InvertedIndex.ExtEq
      (InvertedIndex.addDocument docId document fields
        (InvertedIndex.addDocument docId document fields s))
      (InvertedIndex.addDocument docId document fields s) := by
  have hdocs := InvertedIndex.documents_add_twice hwf hsync docId document fields
  have hdt := InvertedIndex.documentTokens_add_twice hwf hsync docId document fields
  refine ⟨?_, ?_, ?_, ?_, ?_, ?_⟩
  · intro t
    rw [← JsMap.get_isSome_iff, ← JsMap.get_isSome_iff,
      (InvertedIndex.index_add_twice hwf hsync docId document fields t).1]
  · intro t d
    exact (InvertedIndex.index_add_twice hwf hsync docId document fields t).2 d
  · intro d
    rw [hdocs]
  · intro d
    rw [hdt]
  · intro d t
    unfold InvertedIndex.tokensOf
    rw [hdt]
  · exact InvertedIndex.stats_add_twice hwf hsync docId document fields

/-- Witness for C5: re-adding document 1 to the sample index leaves the
stored stats unchanged. -/
theorem C5_addDocument_idempotent_witness :
    (InvertedIndex.addDocument "1".data sampleDoc1 ["title".data]
      (InvertedIndex.addDocument "1".data sampleDoc1 ["title".data]
        sampleIndex)).stats =
    (InvertedIndex.addDocument "1".data sampleDoc1 ["title".data]
      sampleIndex).stats :=
  (C5_addDocument_idempotent sampleIndex "1".data sampleDoc1 ["title".data]
    (by decide) (by decide)).2.2.2.2.2

namespace InvertedIndex

/-! ## Stable-sort structure (C3) -/

theorem insertByScoreDesc_top {r : SearchResult} :
    ∀ (A S : List SearchResult), (∀ a ∈ A, a.score = 1) →
      (∀ b ∈ S, b.score < 1) → r.score = 1 →
      insertByScoreDesc r (A ++ S) = A ++ r :: S
  | [], S, _, hS, hr => by
      cases S with
      | nil => rfl
      | cons b S' =>
          show insertByScoreDesc r (b :: S') = r :: b :: S'
          unfold insertByScoreDesc
          rw [if_pos (by rw [hr]; exact hS b (List.mem_cons_self _ _))]
  | a :: A, S, hA, hS, hr => by
      show insertByScoreDesc r (a :: (A ++ S)) = a :: (A ++ r :: S)
      unfold insertByScoreDesc
      rw [if_neg (by
        rw [hr, hA a (List.mem_cons_self _ _)]
        exact lt_irrefl 1)]
      rw [insertByScoreDesc_top A S (fun x hx => hA x (List.mem_cons_of_mem _ hx)) hS hr]

theorem insertByScoreDesc_low {r : SearchResult} :
    ∀ (A S : List SearchResult), (∀ a ∈ A, a.score = 1) → r.score < 1 →
      insertByScoreDesc r (A ++ S) = A ++ insertByScoreDesc r S
  | [], S, _, _ => by simp
  | a :: A, S, hA, hr => by
      show insertByScoreDesc r (a :: (A ++ S)) = a :: (A ++ insertByScoreDesc r S)
      rw [show insertByScoreDesc r (a :: (A ++ S)) =
        if a.score < r.score then r :: (a :: (A ++ S))
        else a :: insertByScoreDesc r (A ++ S) from rfl]
      rw [if_neg (by
        rw [hA a (List.mem_cons_self _ _)]
        exact fun h => absurd hr (not_lt.mpr (le_of_lt h)))]
      rw [insertByScoreDesc_low A S (fun x hx => hA x (List.mem_cons_of_mem _ hx)) hr]

theorem sortByScoreDesc_aux :
    ∀ (l A S : List SearchResult), (∀ r ∈ l, r.score ≤ 1) →
      (∀ a ∈ A, a.score = 1) → (∀ b ∈ S, b.score < 1) →
      ∃ S', l.foldl (fun acc r => insertByScoreDesc r acc) (A ++ S) =
        (A ++ l.filter (fun r => decide (r.score = 1))) ++ S' ∧
        ∀ b ∈ S', b.score < 1
  | [], A, S, _, _, hS => ⟨S, by simp, hS⟩
  | r :: l, A, S, hl, hA, hS => by
      have hr1 : r.score ≤ 1 := hl r (List.mem_cons_self _ _)
      have hl' : ∀ x ∈ l, x.score ≤ 1 := fun x hx => hl x (List.mem_cons_of_mem _ hx)
      rw [List.foldl_cons]
      by_cases hr : r.score = 1
      · rw [insertByScoreDesc_top A S hA hS hr]
        rw [show A ++ r :: S = (A ++ [r]) ++ S by simp]
        rcases sortByScoreDesc_aux l (A ++ [r]) S hl'
          (by
            intro a ha
            rcases List.mem_append.mp ha with ha | ha
            · exact hA a ha
            · rw [List.mem_singleton.mp ha]; exact hr) hS with ⟨S', hfold, hS'⟩
        refine ⟨S', ?_, hS'⟩
        rw [hfold, List.filter_cons_of_pos (by simpa using hr)]
        simp
      · have hrlt : r.score < 1 := lt_of_le_of_ne hr1 hr
        rw [insertByScoreDesc_low A S hA hrlt]
        rcases sortByScoreDesc_aux l A (insertByScoreDesc r S) hl' hA
          (by
            intro b hb
            rcases mem_insertByScoreDesc.mp hb with rfl | hb
            · exact hrlt
            · exact hS b hb) with ⟨S', hfold, hS'⟩
        refine ⟨S', ?_, hS'⟩
        rw [hfold, List.filter_cons_of_neg (by simpa using hr)]

theorem sortByScoreDesc_decomp {l : List SearchResult}
    (h : ∀ r ∈ l, r.score ≤ 1) :
    ∃ S', sortByScoreDesc l =
      l.filter (fun r => decide (r.score = 1)) ++ S' := by
  rcases sortByScoreDesc_aux l [] [] h (by simp) (by simp) with ⟨S', hfold, _⟩
  exact ⟨S', by simpa [sortByScoreDesc] using hfold⟩

theorem sortByScoreDesc_const {l : List SearchResult}
    (h : ∀ r ∈ l, r.score = 1) : sortByScoreDesc l = l := by
  suffices haux : ∀ (l acc : List SearchResult), (∀ r ∈ l, r.score = 1) →
      (∀ a ∈ acc, a.score = 1) →
      l.foldl (fun acc r => insertByScoreDesc r acc) acc = acc ++ l by
    simpa [sortByScoreDesc] using haux l [] h (by simp)
  intro l
  induction l with
  | nil => intro acc _ _; simp
  | cons r l ih =>
      intro acc hl hacc
      rw [List.foldl_cons]
      have hstep : insertByScoreDesc r acc = acc ++ [r] := by
        have := @insertByScoreDesc_top r acc [] hacc (by simp)
          (hl r (List.mem_cons_self _ _))
        simpa using this
      rw [hstep, ih (acc ++ [r])
        (fun x hx => hl x (List.mem_cons_of_mem _ hx))
        (by
          intro a ha
          rcases List.mem_append.mp ha with ha | ha
          · exact hacc a ha
          · rw [List.mem_singleton.mp ha]
            exact hl r (List.mem_cons_self _ _))]
      simp

end InvertedIndex

theorem filterMap_filter_comm {α β : Type} (F : α → Option β) (p : β → Bool)
    (pa : α → Bool) (hcomp : ∀ a b, F a = some b → p b = pa a) :
    ∀ l : List α, (l.filterMap F).filter p = (l.filter pa).filterMap F
  | [] => rfl
  | a :: l => by
      rcases hFa : F a with _ | b
      · rw [List.filterMap_cons_none hFa, List.filter_cons]
        by_cases hpa : pa a = true
        · rw [if_pos (by simpa using hpa), List.filterMap_cons_none hFa]
          exact filterMap_filter_comm F p pa hcomp l
        · rw [if_neg (by simpa using hpa)]
          exact filterMap_filter_comm F p pa hcomp l
      · rw [List.filterMap_cons_some hFa, List.filter_cons, List.filter_cons]
        rw [hcomp a b hFa]
        by_cases hpa : pa a = true
        · rw [if_pos (by simpa using hpa), if_pos (by simpa using hpa),
            List.filterMap_cons_some hFa]
          rw [filterMap_filter_comm F p pa hcomp l]
        · rw [if_neg (by simpa using hpa), if_neg (by simpa using hpa)]
          exact filterMap_filter_comm F p pa hcomp l

namespace InvertedIndex

theorem buildResults_score_le_one {s : InvertedIndex} {queryTokens : List Str}
    {minScore : ℚ} {ids : List Str} :
    ∀ r ∈ buildResults s queryTokens minScore ids, r.score ≤ 1 := by
  intro r hr
  rw [(mem_buildResults hr).2.2.1]
  exact calculateMatchScore_le_one _ _

theorem andResults_score_one {s : InvertedIndex} (hinv : Invariant s)
    {queryTokens : List Str} {minScore : ℚ} :
    ∀ r ∈ buildResults s queryTokens minScore (andCandidates s queryTokens),
      r.score = 1 := by
  intro r hr
  have hb := mem_buildResults hr
  rcases mem_andCandidates.mp hb.1 with ⟨hq, hall⟩
  rw [hb.2.2.1]
  exact calculateMatchScore_eq_one hq
    (fun t ht => (hinv t r.docId).mp (hall t ht))

theorem buildResults_filter_score (s : InvertedIndex) (queryTokens : List Str)
    (minScore : ℚ) (ids : List Str) :
    (buildResults s queryTokens minScore ids).filter
        (fun r => decide (r.score = 1)) =
      buildResults s queryTokens minScore
        (ids.filter (fun id =>
          decide (calculateMatchScore queryTokens (tokensOf s id) = 1))) := by
  apply filterMap_filter_comm
  intro id r hF
  rcases hdoc : s.documents.get id with _ | document
  · rw [hdoc] at hF; cases hF
  · rw [hdoc] at hF
    simp only at hF
    split at hF
    · rcases Option.some_inj.mp hF with rfl
      rfl
    · cases hF

theorem adds_extends : ∀ (l : List Str) (acc : JsSet Str),
    ∃ ex, (l.foldl (fun a id => a.add id) acc).elems = acc.elems ++ ex ∧
      ∀ id ∈ ex, id ∉ acc.elems
  | [], acc => ⟨[], by simp, by simp⟩
  | x :: l, acc => by
      rw [List.foldl_cons]
      by_cases hx : x ∈ acc.elems
      · have hacc : acc.add x = acc := by simp [JsSet.add, hx]
        rw [hacc]
        exact adds_extends l acc
      · have hacc : (acc.add x).elems = acc.elems ++ [x] := by
          simp [JsSet.add, hx]
        rcases adds_extends l (acc.add x) with ⟨ex, hex, hnin⟩
        refine ⟨x :: ex, by rw [hex, hacc]; simp, ?_⟩
        intro id hid
        rcases List.mem_cons.mp hid with rfl | hid
        · exact hx
        · intro hmem
          exact hnin id hid (by rw [hacc]; exact List.mem_append_left _ hmem)

theorem or_fold_extends (s : InvertedIndex) :
    ∀ (qs : List Str) (acc : JsSet Str),
    ∃ ex, (qs.foldl (fun acc t =>
        match s.index.get t with
        | some ds => ds.elems.foldl (fun a id => a.add id) acc
        | none => acc) acc).elems = acc.elems ++ ex ∧
      ∀ id ∈ ex, id ∉ acc.elems
  | [], acc => ⟨[], by simp, by simp⟩
  | t :: qs, acc => by
      rw [List.foldl_cons]
      rcases hg : s.index.get t with _ | ds
      · exact or_fold_extends s qs acc
      · simp only
        rcases adds_extends ds.elems acc with ⟨ex1, hex1, hnin1⟩
        rcases or_fold_extends s qs (ds.elems.foldl (fun a id => a.add id) acc)
          with ⟨ex2, hex2, hnin2⟩
        refine ⟨ex1 ++ ex2, by rw [hex2, hex1]; simp, ?_⟩
        intro id hid
        rcases List.mem_append.mp hid with hid | hid
        · exact hnin1 id hid
        · intro hmem
          exact hnin2 id hid (by rw [hex1]; exact List.mem_append_left _ hmem)

theorem orCandidates_decomp {s : InvertedIndex} (hwf : WF s) (q0 : Str)
    (qrest : List Str) :
    ∃ extra, orCandidates s (q0 :: qrest) = postingsOf s q0 ++ extra ∧
      ∀ id ∈ extra, id ∉ postingsOf s q0 := by
  unfold orCandidates
  rw [List.foldl_cons]
  have hacc1 : (match s.index.get q0 with
      | some ds => ds.elems.foldl (fun (a : JsSet Str) id => a.add id) (⟨[]⟩ : JsSet Str)
      | none => (⟨[]⟩ : JsSet Str)).elems = postingsOf s q0 := by
    rcases hg : s.index.get q0 with _ | ds
    · simp [postingsOf, hg]
    · simp only
      show (JsSet.ofList ds.elems).elems = _
      rw [JsSet.ofList_eq_self (hwf.2.1 _ (lookupFirst_mem hg))]
      simp [postingsOf, hg]
  rcases or_fold_extends s qrest _ with ⟨extra, hex, hnin⟩
  refine ⟨extra, ?_, ?_⟩
  · rw [hex, hacc1]
  · intro id hid
    rw [← hacc1]
    exact hnin id hid

theorem inter_fold_eq (sets : List (List Str)) (init : List Str) :
    sets.foldl (fun acc ds => acc.filter (fun id => decide (id ∈ ds))) init =
      init.filter (fun id => decide (∀ ds ∈ sets, id ∈ ds)) := by
  induction sets generalizing init with
  | nil =>
      rw [List.foldl_nil]
      rw [List.filter_eq_self.mpr]
      intro a _
      simp
  | cons ds sets ih =>
      rw [List.foldl_cons, ih, List.filter_filter]
      apply List.filter_congr
      intro id _
      simp [List.forall_mem_cons, Bool.and_comm]

end InvertedIndex

namespace InvertedIndex

theorem orCandidates_filter_eq {s : InvertedIndex} (hwf : WF s)
    (hinv : Invariant s) (q0 : Str) (qrest : List Str) :
    (orCandidates s (q0 :: qrest)).filter (fun id =>
        decide (calculateMatchScore (q0 :: qrest) (tokensOf s id) = 1)) =
      andCandidates s (q0 :: qrest) := by
  have hq : q0 :: qrest ≠ ([] : List Str) := by simp
  have hiff : ∀ id, calculateMatchScore (q0 :: qrest) (tokensOf s id) = 1 ↔
      ∀ t ∈ q0 :: qrest, id ∈ postingsOf s t := by
    intro id
    rw [calculateMatchScore_eq_one_iff hq]
    constructor
    · intro h t ht
      exact (hinv t id).mpr (h t ht)
    · intro h t ht
      exact (hinv t id).mp (h t ht)
  rcases orCandidates_decomp hwf q0 qrest with ⟨extra, hU, hnin⟩
  rw [hU, List.filter_append]
  rw [show extra.filter (fun id =>
      decide (calculateMatchScore (q0 :: qrest) (tokensOf s id) = 1)) = [] from
    List.filter_eq_nil_iff.mpr (by
      intro id hid hp
      exact hnin id hid ((hiff id).mp (by simpa using hp) q0
        (List.mem_cons_self _ _)))]
  rw [List.append_nil]
  rw [show andCandidates s (q0 :: qrest) =
      (postingsOf s q0).filter (fun id =>
        decide (∀ ds ∈ qrest.map (fun t => postingsOf s t), id ∈ ds)) from by
    unfold andCandidates
    rw [List.map_cons]
    exact inter_fold_eq _ _]
  apply List.filter_congr
  intro id hid
  rw [decide_eq_decide, hiff id]
  constructor
  · intro h ds hds
    rcases List.mem_map.mp hds with ⟨t, ht, rfl⟩
    exact h t (List.mem_cons_of_mem _ ht)
  · intro h t ht
    rcases List.mem_cons.mp ht with rfl | ht
    · exact hid
    · exact h _ (List.mem_map.mpr ⟨t, ht, rfl⟩)

end InvertedIndex

/-- C3: For every well-formed index state satisfying the bidirectional
invariant (as all reachable states do), every query string and every options
value, the document ids returned by AND `search` are a subset of the document
ids returned by OR `searchOr` under the same options. -/
theorem C3_and_subset_or (s : InvertedIndex) (query : Str)
    (opts : InvertedIndex.SearchOptions) (hwf : InvertedIndex.WF s)
    (hinv : InvertedIndex.Invariant s) :
    ∀ id ∈ (InvertedIndex.search query opts s).map
        InvertedIndex.SearchResult.docId,
      id ∈ (InvertedIndex.searchOr query opts s).map
        InvertedIndex.SearchResult.docId := by
  intro id hid
  rcases hQ : tokenize query with _ | ⟨q0, qrest⟩
  · rw [InvertedIndex.search_empty_query hQ] at hid
    simp at hid
  · have hRAone := @InvertedIndex.andResults_score_one s hinv
      (q0 :: qrest) opts.minScore
    have hsearch : InvertedIndex.search query opts s =
        (InvertedIndex.buildResults s (q0 :: qrest) opts.minScore
          (InvertedIndex.andCandidates s (q0 :: qrest))).take opts.limit := by
      simp only [InvertedIndex.search, hQ, List.isEmpty_cons, Bool.false_eq_true, if_false]
      by_cases hs : opts.sortByScore = true
      · rw [if_pos hs, InvertedIndex.sortByScoreDesc_const hRAone]
      · rw [if_neg hs]
    have hle : ∀ r ∈ InvertedIndex.buildResults s (q0 :: qrest) opts.minScore
        (InvertedIndex.orCandidates s (q0 :: qrest)), r.score ≤ 1 :=
      InvertedIndex.buildResults_score_le_one
    rcases InvertedIndex.sortByScoreDesc_decomp hle with ⟨S', hdecomp⟩
    rw [InvertedIndex.buildResults_filter_score,
      InvertedIndex.orCandidates_filter_eq hwf hinv q0 qrest] at hdecomp
    have hor : InvertedIndex.searchOr query opts s =
        ((InvertedIndex.buildResults s (q0 :: qrest) opts.minScore
            (InvertedIndex.andCandidates s (q0 :: qrest))) ++ S').take
          opts.limit := by
      simp only [InvertedIndex.searchOr, hQ, List.isEmpty_cons, Bool.false_eq_true, if_false]
      rw [hdecomp]
    rw [hsearch] at hid
    rw [hor, List.take_append_eq_append_take]
    rcases List.mem_map.mp hid with ⟨r, hr, rfl⟩
    exact List.mem_map.mpr ⟨r, List.mem_append_left _ hr, rfl⟩

/-- Witness for C3: document `"1"` returned by the AND search for `管理` on
the sample index is also returned by the OR search. -/
theorem C3_and_subset_or_witness :
    "1".data ∈ (InvertedIndex.searchOr "管理".data {} sampleIndex).map
      InvertedIndex.SearchResult.docId :=
  C3_and_subset_or sampleIndex "管理".data {}
    InvertedIndex.goodState_sampleIndex.1
    InvertedIndex.goodState_sampleIndex.2.2 "1".data (by decide)

/-! ## The Japanese word branch of `tokenize` (C9) -/

theorem isJpChar_not_ascii {c : Char} (h : isJpChar c = true) :
    isAsciiWordChar c = false := by
  unfold isJpChar at h
  unfold isAsciiWordChar
  rw [decide_eq_true_eq] at h
  rw [decide_eq_false_iff_not]
  omega

theorem any_jp_not_ascii_word {word : Str} (h : word.any isJpChar = true) :
    ¬ word.all isAsciiWordChar = true := by
  rcases List.any_eq_true.mp h with ⟨c, hc, hjp⟩
  intro hall
  have := List.all_eq_true.mp hall c hc
  rw [isJpChar_not_ascii hjp] at this
  cases this

theorem bigram_fold_mem (word : Str) (acc1 : JsSet Str) (tok : Str) :
    ∀ n : Nat, (tok ∈ ((List.range n).foldl (fun a i =>
        let bg := (word.drop i).take 2
        if bg.length = 2 ∧ bg.all isJpChar then a.add bg else a) acc1).elems ↔
      tok ∈ acc1.elems ∨ ∃ i, i < n ∧ ((word.drop i).take 2).length = 2 ∧
        ((word.drop i).take 2).all isJpChar = true ∧ tok = (word.drop i).take 2)
  | 0 => by simp
  | n + 1 => by
      rw [List.range_succ, List.foldl_append, List.foldl_cons, List.foldl_nil]
      simp only
      by_cases hcond : ((word.drop n).take 2).length = 2 ∧
          ((word.drop n).take 2).all isJpChar = true
      · rw [if_pos hcond, JsSet.mem_add, bigram_fold_mem word acc1 tok n]
        constructor
        · rintro ((h | ⟨i, hi, h2, h3, h4⟩) | rfl)
          · exact Or.inl h
          · exact Or.inr ⟨i, Nat.lt_succ_of_lt hi, h2, h3, h4⟩
          · exact Or.inr ⟨n, Nat.lt_succ_self n, hcond.1, hcond.2, rfl⟩
        · rintro (h | ⟨i, hi, h2, h3, h4⟩)
          · exact Or.inl (Or.inl h)
          · rcases Nat.lt_succ_iff_lt_or_eq.mp hi with hi | rfl
            · exact Or.inl (Or.inr ⟨i, hi, h2, h3, h4⟩)
            · exact Or.inr h4
      · rw [if_neg hcond, bigram_fold_mem word acc1 tok n]
        constructor
        · rintro (h | ⟨i, hi, h2, h3, h4⟩)
          · exact Or.inl h
          · exact Or.inr ⟨i, Nat.lt_succ_of_lt hi, h2, h3, h4⟩
        · rintro (h | ⟨i, hi, h2, h3, h4⟩)
          · exact Or.inl h
          · rcases Nat.lt_succ_iff_lt_or_eq.mp hi with hi | rfl
            · exact Or.inr ⟨i, hi, h2, h3, h4⟩
            · exact absurd ⟨h2, h3⟩ hcond

theorem bigram_length_of_bound {word : Str} {i : Nat} (h : i + 2 ≤ word.length) :
    ((word.drop i).take 2).length = 2 := by
  rw [List.length_take, List.length_drop]
  omega

/-- C9: In `tokenize` (with stopword removal on, as in the default options),
a raw word containing a Hiragana/Katakana/CJK-ideograph code point contributes
no tokens at all when it equals a stopword; otherwise it contributes the whole
word iff its length is within `[minLength, maxLength]`, plus, when
`useBigram`, exactly the 2-character windows whose two characters both lie in
those script ranges. -/
theorem C9_japanese_word_branch (opts : TokenizeOptions) (acc : JsSet Str)
    (word : Str) (hrs : opts.removeStopwords = true)
    (hjp : word.any isJpChar = true) :
    (word ∈ JAPANESE_STOPWORDS → addWordTokens opts acc word = acc) ∧
    (word ∉ JAPANESE_STOPWORDS →
      ∀ tok, tok ∈ (addWordTokens opts acc word).elems ↔
        tok ∈ acc.elems ∨
        (tok = word ∧ opts.minLength ≤ word.length ∧
          word.length ≤ opts.maxLength) ∨
        (opts.useBigram = true ∧ ∃ i, i + 2 ≤ word.length ∧
          tok = (word.drop i).take 2 ∧
          ((word.drop i).take 2).all isJpChar = true)) := by
  have hne : ¬ word = [] := by
    intro h
    rw [h] at hjp
    cases hjp
  have hascii : ¬ word.all isAsciiWordChar = true := any_jp_not_ascii_word hjp
  constructor
  · intro hstop
    unfold addWordTokens
    rw [if_neg hne, if_neg hascii, if_pos hjp,
      if_pos (by exact ⟨by rw [hrs], hstop⟩)]
  · intro hstop tok
    unfold addWordTokens
    rw [if_neg hne, if_neg hascii, if_pos hjp,
      if_neg (by rintro ⟨_, hmem⟩; exact hstop hmem)]
    simp only
    have hacc1 : ∀ x, (x ∈ (if opts.minLength ≤ word.length ∧
          word.length ≤ opts.maxLength then acc.add word else acc).elems) ↔
        x ∈ acc.elems ∨ (x = word ∧ opts.minLength ≤ word.length ∧
          word.length ≤ opts.maxLength) := by
      intro x
      by_cases hlen : opts.minLength ≤ word.length ∧ word.length ≤ opts.maxLength
      · rw [if_pos hlen, JsSet.mem_add]
        constructor
        · rintro (h | rfl)
          · exact Or.inl h
          · exact Or.inr ⟨rfl, hlen⟩
        · rintro (h | ⟨rfl, _⟩)
          · exact Or.inl h
          · exact Or.inr rfl
      · rw [if_neg hlen]
        constructor
        · exact Or.inl
        · rintro (h | ⟨rfl, hlen'⟩)
          · exact h
          · exact absurd hlen' hlen
    by_cases hbig : opts.useBigram = true ∧ 2 ≤ word.length
    · rw [if_pos hbig, bigram_fold_mem word _ tok (word.length - 1), hacc1 tok]
      constructor
      · rintro ((h | h) | ⟨i, hi, h2, h3, h4⟩)
        · exact Or.inl h
        · exact Or.inr (Or.inl h)
        · exact Or.inr (Or.inr ⟨hbig.1, i, by omega, h4, h3⟩)
      · rintro (h | h | ⟨_, i, hi, h4, h3⟩)
        · exact Or.inl (Or.inl h)
        · exact Or.inl (Or.inr h)
        · exact Or.inr ⟨i, by omega, bigram_length_of_bound hi, h3, h4⟩
    · rw [if_neg hbig, hacc1 tok]
      constructor
      · rintro (h | h)
        · exact Or.inl h
        · exact Or.inr (Or.inl h)
      · rintro (h | h | ⟨hub, i, hi, _, _⟩)
        · exact Or.inl h
        · exact Or.inr h
        · exact absurd ⟨hub, by omega⟩ hbig

/-- Witness for C9: the stopword `の` contributes nothing; the word `これは`
(not itself a stopword) contributes the bigram `これ`. -/
theorem C9_japanese_word_branch_witness :
    addWordTokens {} (⟨[]⟩ : JsSet Str) "の".data = (⟨[]⟩ : JsSet Str) ∧
    "これ".data ∈ (addWordTokens {} (⟨[]⟩ : JsSet Str) "これは".data).elems :=
  ⟨(C9_japanese_word_branch {} ⟨[]⟩ "の".data rfl (by decide)).1 (by decide),
   ((C9_japanese_word_branch {} ⟨[]⟩ "これは".data rfl (by decide)).2
      (by decide) "これ".data).mpr
     (Or.inr (Or.inr ⟨rfl, 0, by decide, by decide, by decide⟩))⟩

/-! ## Match positions (C8) -/

theorem indexOfFromGo_some (text pat : Str) :
    ∀ (fuel start i : Nat), indexOfFromGo text pat fuel start = some i →
      start ≤ i ∧ occursAt text pat i ∧
        ∀ j, start ≤ j → j < i → ¬ occursAt text pat j
  | 0, start, i, h => by cases h
  | fuel + 1, start, i, h => by
      unfold indexOfFromGo at h
      by_cases hcond : start + pat.length ≤ text.length
      · rw [if_pos hcond] at h
        by_cases hpre : pat.isPrefixOf (text.drop start) = true
        · rw [if_pos hpre] at h
          rcases Option.some_inj.mp h with rfl
          exact ⟨le_refl _, ⟨hpre, hcond⟩, fun j h1 h2 => absurd (lt_of_le_of_lt h1 h2) (lt_irrefl _)⟩
        · rw [if_neg hpre] at h
          rcases indexOfFromGo_some text pat fuel (start + 1) i h with ⟨h1, h2, h3⟩
          refine ⟨by omega, h2, ?_⟩
          intro j hj1 hj2
          by_cases hjs : j = start
          · subst hjs
            intro hocc
            exact hpre hocc.1
          · exact h3 j (by omega) hj2
      · rw [if_neg hcond] at h
        cases h

theorem indexOfFromGo_none (text pat : Str) :
    ∀ (fuel start : Nat), text.length + 1 - start ≤ fuel →
      indexOfFromGo text pat fuel start = none →
      ∀ j, start ≤ j → ¬ occursAt text pat j
  | 0, start, hfuel, _, j, hj, hocc => by
      have : j + pat.length ≤ text.length := hocc.2
      omega
  | fuel + 1, start, hfuel, h, j, hj, hocc => by
      unfold indexOfFromGo at h
      by_cases hcond : start + pat.length ≤ text.length
      · rw [if_pos hcond] at h
        by_cases hpre : pat.isPrefixOf (text.drop start) = true
        · rw [if_pos hpre] at h
          cases h
        · rw [if_neg hpre] at h
          by_cases hjs : j = start
          · subst hjs
            exact hpre hocc.1
          · exact indexOfFromGo_none text pat fuel (start + 1) (by omega) h j
              (by omega) hocc
      · have : j + pat.length ≤ text.length := hocc.2
        omega

theorem occurScan_sound (text pat : Str) :
    ∀ (fuel start : Nat), ∀ i ∈ occurScan text pat fuel start,
      start ≤ i ∧ occursAt text pat i
  | 0, start, i, h => by cases h
  | fuel + 1, start, i, h => by
      unfold occurScan at h
      rcases hidx : indexOfFrom text pat start with _ | i0
      · rw [hidx] at h; cases h
      · rw [hidx] at h
        rcases indexOfFromGo_some text pat _ start i0 hidx with ⟨h1, h2, _⟩
        rcases List.mem_cons.mp h with rfl | h
        · exact ⟨h1, h2⟩
        · rcases occurScan_sound text pat fuel (i0 + pat.length) i h with ⟨h3, h4⟩
          exact ⟨by omega, h4⟩

theorem occurScan_complete (text pat : Str) (hpat : pat ≠ []) :
    ∀ (fuel start : Nat), text.length + 1 - start ≤ fuel →
      ∀ j, start ≤ j → occursAt text pat j →
        j ∈ occurScan text pat fuel start ∨
        ∃ i ∈ occurScan text pat fuel start, i < j ∧ j < i + pat.length
  | 0, start, hfuel, j, hj, hocc => by
      have : j + pat.length ≤ text.length := hocc.2
      omega
  | fuel + 1, start, hfuel, j, hj, hocc => by
      unfold occurScan
      rcases hidx : indexOfFrom text pat start with _ | i0
      · exact absurd hocc (indexOfFromGo_none text pat _ start (le_refl _) hidx j hj)
      · rcases indexOfFromGo_some text pat _ start i0 hidx with ⟨h1, h2, hmin⟩
        have hji0 : i0 ≤ j := by
          by_contra hlt
          exact hmin j hj (by omega) hocc
        by_cases hje : j = i0
        · subst hje
          exact Or.inl (List.mem_cons_self _ _)
        · by_cases hcov : j < i0 + pat.length
          · exact Or.inr ⟨i0, List.mem_cons_self _ _, by omega, hcov⟩
          · have hplen : 1 ≤ pat.length := by
              rcases pat with _ | ⟨c, cs⟩
              · exact absurd rfl hpat
              · simp
            have hi0len : i0 + pat.length ≤ text.length := h2.2
            rcases occurScan_complete text pat hpat fuel (i0 + pat.length)
              (by omega) j (by omega) hocc with h | ⟨i, hi, hlt, hcov'⟩
            · exact Or.inl (List.mem_cons_of_mem _ h)
            · exact Or.inr ⟨i, List.mem_cons_of_mem _ hi, hlt, hcov'⟩

theorem tokenOccurrences_sound {text pat : Str} {i : Nat}
    (h : i ∈ tokenOccurrences text pat) : occursAt text pat i := by
  unfold tokenOccurrences at h
  by_cases hpat : pat = ([] : Str)
  · rw [if_pos hpat] at h; cases h
  · rw [if_neg hpat] at h
    exact (occurScan_sound text pat _ 0 i h).2

theorem tokenOccurrences_complete {text pat : Str} (hpat : pat ≠ []) {j : Nat}
    (hocc : occursAt text pat j) :
    j ∈ tokenOccurrences text pat ∨
      ∃ i ∈ tokenOccurrences text pat, i < j ∧ j < i + pat.length := by
  unfold tokenOccurrences
  rw [if_neg hpat]
  exact occurScan_complete text pat hpat (text.length + 1) 0 (by omega) j
    (Nat.zero_le j) hocc

theorem mem_insertByStartAsc {p x : MatchPosition} {l : List MatchPosition} :
    x ∈ insertByStartAsc p l ↔ x = p ∨ x ∈ l := by
  induction l with
  | nil => simp [insertByStartAsc]
  | cons q qs ih =>
      unfold insertByStartAsc
      split
      · simp
      · simp only [List.mem_cons, ih]
        tauto

theorem mem_sortByStartAsc {l : List MatchPosition} {x : MatchPosition} :
    x ∈ sortByStartAsc l ↔ x ∈ l := by
  suffices haux : ∀ (l acc : List MatchPosition) (x : MatchPosition),
      x ∈ l.foldl (fun acc p => insertByStartAsc p acc) acc ↔
        x ∈ acc ∨ x ∈ l by
    simpa [sortByStartAsc] using haux l [] x
  intro l
  induction l with
  | nil => simp
  | cons p ps ih =>
      intro acc x
      simp only [List.foldl_cons, ih, mem_insertByStartAsc, List.mem_cons]
      tauto

theorem sorted_insertByStartAsc {p : MatchPosition} {l : List MatchPosition}
    (h : l.Pairwise (fun a b => a.start ≤ b.start)) :
    (insertByStartAsc p l).Pairwise (fun a b => a.start ≤ b.start) := by
  induction l with
  | nil => simp [insertByStartAsc]
  | cons q qs ih =>
      rcases List.pairwise_cons.mp h with ⟨hq, hqs⟩
      unfold insertByStartAsc
      split
      · rename_i hlt
        apply List.pairwise_cons.mpr
        refine ⟨?_, h⟩
        intro x hx
        rcases List.mem_cons.mp hx with rfl | hx
        · exact le_of_lt hlt
        · exact le_trans (le_of_lt hlt) (hq x hx)
      · rename_i hnlt
        apply List.pairwise_cons.mpr
        refine ⟨?_, ih hqs⟩
        intro x hx
        rcases mem_insertByStartAsc.mp hx with rfl | hx
        · omega
        · exact hq x hx

theorem sorted_sortByStartAsc (l : List MatchPosition) :
    (sortByStartAsc l).Pairwise (fun a b => a.start ≤ b.start) := by
  suffices haux : ∀ (l acc : List MatchPosition),
      acc.Pairwise (fun a b => a.start ≤ b.start) →
      (l.foldl (fun acc p => insertByStartAsc p acc) acc).Pairwise
        (fun a b => a.start ≤ b.start) by
    exact haux l [] (by simp)
  intro l
  induction l with
  | nil => intro acc h; exact h
  | cons p ps ih =>
      intro acc h
      exact ih _ (sorted_insertByStartAsc h)

/-- C8 counterexample: for text `"aaa"` and token `"aa"`, the occurrence at
offset 1 exists in the normalized text, but the scan resumes after each match
(`index += token.length`), so only the occurrence at offset 0 is reported —
overlapping occurrences of the *same* token are not all reported. -/
theorem C8_findMatchPositions_counterexample :
    occursAt (normalizeText "aaa".data) "aa".data 1 ∧
    findMatchPositions "aaa".data ["aa".data] =
      [{ start := 0, endPos := 2, token := "aa".data }] ∧
    ¬ ∃ p ∈ findMatchPositions "aaa".data ["aa".data], p.start = 1 :=
  ⟨by decide, by decide, by decide⟩

/-- C8 amended: for nonempty tokens, `findMatchPositions` returns records
sorted ascending by start; every record is a true occurrence of its token in
the normalized text with `end = start + token.length`; and every occurrence of
every token is either reported or begins strictly inside a reported
occurrence of that same token (the scan resumes past each match, so
overlapping occurrences of one token are skipped; occurrences of distinct
tokens may overlap and are all reported). -/
theorem C8_findMatchPositions_scan (text : Str) (tokens : List Str)
    (hne : ∀ tok ∈ tokens, tok ≠ []) :
    (findMatchPositions text tokens).Pairwise (fun a b => a.start ≤ b.start) ∧
    (∀ p ∈ findMatchPositions text tokens, p.token ∈ tokens ∧
      occursAt (normalizeText text) p.token p.start ∧
      p.endPos = p.start + p.token.length) ∧
    (∀ tok ∈ tokens, ∀ j, occursAt (normalizeText text) tok j →
      (∃ p ∈ findMatchPositions text tokens, p.token = tok ∧ p.start = j) ∨
      (∃ p ∈ findMatchPositions text tokens, p.token = tok ∧ p.start < j ∧
        j < p.start + tok.length)) := by
  have hmem : ∀ p : MatchPosition, p ∈ findMatchPositions text tokens ↔
      ∃ tok ∈ tokens, ∃ i ∈ tokenOccurrences (normalizeText text) tok,
        p = { start := i, endPos := i + tok.length, token := tok } := by
    intro p
    unfold findMatchPositions
    rw [mem_sortByStartAsc, List.mem_flatMap]
    constructor
    · rintro ⟨tok, htok, hp⟩
      rcases List.mem_map.mp hp with ⟨i, hi, rfl⟩
      exact ⟨tok, htok, i, hi, rfl⟩
    · rintro ⟨tok, htok, i, hi, rfl⟩
      exact ⟨tok, htok, List.mem_map.mpr ⟨i, hi, rfl⟩⟩
  refine ⟨sorted_sortByStartAsc _, ?_, ?_⟩
  · intro p hp
    rcases (hmem p).mp hp with ⟨tok, htok, i, hi, rfl⟩
    exact ⟨htok, tokenOccurrences_sound hi, rfl⟩
  · intro tok htok j hocc
    rcases tokenOccurrences_complete (hne tok htok) hocc with h | ⟨i, hi, hlt, hcov⟩
    · left
      exact ⟨{ start := j, endPos := j + tok.length, token := tok },
        (hmem _).mpr ⟨tok, htok, j, h, rfl⟩, rfl, rfl⟩
    · right
      exact ⟨{ start := i, endPos := i + tok.length, token := tok },
        (hmem _).mpr ⟨tok, htok, i, hi, rfl⟩, rfl, hlt, hcov⟩

/-- Witness for C8 (amended) at text `"abab"` and token `"ab"`. -/
theorem C8_findMatchPositions_scan_witness :
    (findMatchPositions "abab".data ["ab".data]).Pairwise
      (fun a b => a.start ≤ b.start) :=
  (C8_findMatchPositions_scan "abab".data ["ab".data] (by decide)).1
